import Mathlib

/-!
Verification of the optimization core of the pylearn-parsimony repository
(structured sparse regression: FISTA, CONESTA, the excessive gap method,
bisection root finding, and the proximal operators).

The Python sources are shallowly embedded over exact rational arithmetic:
dense column vectors become `List ℚ`, objectives become records of rational
functions, and every solver loop becomes a fuel-indexed structural recursion
(the fuel always dominates the iteration cap of the source loop).

Euclidean norm comparisons `norm v < c` are encoded by the equivalent
decidable statement `0 < c ∧ normSq v < c ^ 2` (squares of rationals avoid
the irrational square root; for nonnegative norms the two are equivalent).
-/

/-- Modelled from the spec: the sign primitive of the numeric-primitives
component (the module parsimony.utils.maths is not present under src/; the
repository version in strukturerad.datasets.simulated.l1_l2 returns 1.0,
-1.0 or 0.0). -/
def signQ (x : ℚ) : ℚ :=
  if 0 < x then 1 else if x < 0 then -1 else 0

/-- Absolute value, written out so that it evaluates by kernel reduction
(numpy np.absolute). -/
def absQ (x : ℚ) : ℚ := if x < 0 then -x else x

/-- Binary minimum, written out so that it evaluates by kernel reduction
(Python min). -/
def minQ (a b : ℚ) : ℚ := if a ≤ b then a else b

/-- Binary maximum, written out so that it evaluates by kernel reduction
(Python max). -/
def maxQ (a b : ℚ) : ℚ := if a ≤ b then b else a

theorem absQ_eq_abs (x : ℚ) : absQ x = |x| := by
  unfold absQ
  by_cases h : x < 0
  · rw [if_pos h, abs_of_neg h]
  · rw [if_neg h, abs_of_nonneg (not_lt.mp h)]

theorem minQ_eq_min (a b : ℚ) : minQ a b = min a b := by
  unfold minQ
  rw [min_def]

theorem maxQ_eq_max (a b : ℚ) : maxQ a b = max a b := by
  unfold maxQ
  rw [max_def]

/-- Squared Euclidean norm of a rational vector. -/
def normSq (v : List ℚ) : ℚ :=
  (v.map (fun x => x ^ 2)).sum

/-- L1 norm of a rational vector. -/
def norm1Q (v : List ℚ) : ℚ :=
  (v.map (fun x => absQ x)).sum

/-- Decidable encoding of the Euclidean comparison `norm v < c`: since the
norm is nonnegative, `norm v < c` holds exactly when `0 < c` and
`normSq v < c ^ 2`. -/
def normLtQ (v : List ℚ) (c : ℚ) : Prop :=
  0 < c ∧ normSq v < c ^ 2

instance (v : List ℚ) (c : ℚ) : Decidable (normLtQ v c) := by
  unfold normLtQ; infer_instance

/-- Modelled from the spec: the tolerance constant of the numeric-primitives
component (parsimony.utils.consts and multiblock.utils are not present under
src/; the spec lists tolerance constants among the numeric primitives).
Its exact positive value is irrelevant to every claim below. -/
def TOLERANCE : ℚ := 5 / 10 ^ 8

/-- Elementwise vector addition (numpy broadcasting on equal shapes). -/
def vadd (a b : List ℚ) : List ℚ := List.zipWith (fun x y => x + y) a b

/-- Elementwise vector subtraction. -/
def vsub (a b : List ℚ) : List ℚ := List.zipWith (fun x y => x - y) a b

/-- Scalar times vector. -/
def smul (c : ℚ) (v : List ℚ) : List ℚ := v.map (fun x => c * x)

/-! ### parsimony.functions.penalties.L1 -/

/-- The L1 penalty of parsimony.functions.penalties: Lagrange weight `l`,
constraint level `c`, unpenalised prefix length `penalty_start`. -/
structure PenaltyL1 where
  l : ℚ
  c : ℚ
  penalty_start : ℕ

/-- penalties.L1.prox: with threshold `l = self.l * factor`, the penalised
suffix is mapped through `(|b| > l) * (b - l * sign(b - l))` and the
unpenalised prefix is stacked back unchanged. -/
def PenaltyL1.prox (P : PenaltyL1) (beta : List ℚ) (factor : ℚ) : List ℚ :=
  let l := P.l * factor
  let beta_ := beta.drop P.penalty_start
  let proxv := beta_.map (fun b => (if l < absQ b then (1 : ℚ) else 0) * (b - l * signQ (b - l)))
  beta.take P.penalty_start ++ proxv

/-- The soft-thresholding map exactly as the spec states it:
`sign(x) * max(|x| - t, 0)`. -/
def softThresholdSpec (t x : ℚ) : ℚ :=
  signQ x * max (|x| - t) 0

/-- penalties.L1.feasible: the L1 norm of the penalised suffix is at most c. -/
def PenaltyL1.feasible (P : PenaltyL1) (beta : List ℚ) : Prop :=
  norm1Q (beta.drop P.penalty_start) ≤ P.c

instance (P : PenaltyL1) (beta : List ℚ) : Decidable (P.feasible beta) := by
  unfold PenaltyL1.feasible; infer_instance

/-! ### parsimony.algorithms.Bisection -/

/-- Configuration of parsimony.algorithms.Bisection (eps, max_iter,
min_iter — exactly the keyword parameters its constructor accepts). -/
structure BisectionCfg where
  eps : ℚ
  max_iter : ℕ
  min_iter : ℕ

/-- The keyword parameters accepted by Bisection.__init__ in the source. -/
def bisectionInitKeywords : List String := ["eps", "max_iter", "min_iter"]

/-- A Python keyword-argument call check: passing a keyword that is not a
parameter of the callee raises TypeError before any body code runs. -/
def pythonKwargsCheck (accepted given : List String) : Except String Unit :=
  match given.filter (fun k => !(accepted.contains k)) with
  | [] => Except.ok ()
  | k :: _ => Except.error ("TypeError: unexpected keyword argument " ++ k)

/-- Bracket-expansion phase of Bisection.__call__: up to `fuel` (= max_iter)
iterations; each evaluates `f low` and `f high`, exits with `found = true`
on a sign change, and otherwise widens the bracket by
`low -= |low| * 2 ^ i`, `high += |high| * 2 ^ i`.  The accumulators
`flp`/`fhp` carry the function values of the previous iteration, which the
source leaves in `f_low`/`f_high` when the loop exhausts (they then refer
to the pre-update bracket, exactly as in the Python). -/
def bisectionExpand (f : ℚ → ℚ) : ℕ → ℕ → ℚ → ℚ → ℚ → ℚ → ℚ × ℚ × ℚ × ℚ × Bool
  | 0, _, low, high, flp, fhp => (low, high, flp, fhp, false)
  | fuel + 1, i, low, high, _, _ =>
    let fl := f low
    let fh := f high
    if signQ fl = signQ fh then
      bisectionExpand f fuel (i + 1) (low - absQ low * 2 ^ i) (high + absQ high * 2 ^ i) fl fh
    else
      (low, high, fl, fh, true)

/-- Bisection phase of Bisection.__call__: up to `fuel` (= max_iter)
halvings; the side whose sign matches `f_low` is replaced by the midpoint,
and the loop exits when `|high - low| ≤ eps` (the source computes
`np.sqrt((high - low) ** 2)`, which is exactly the absolute value). -/
def bisectionLoop (f : ℚ → ℚ) (eps : ℚ) : ℕ → ℚ → ℚ → ℚ → ℚ → ℚ × ℚ
  | 0, low, high, _, _ => (low, high)
  | fuel + 1, low, high, fl, fh =>
    let mid := (low + high) / 2
    let fm := f mid
    let next : ℚ × ℚ × ℚ × ℚ :=
      if signQ fm = signQ fl then (mid, high, fm, fh) else (low, mid, fl, fm)
    if absQ (next.2.1 - next.1) ≤ eps then (next.1, next.2.1)
    else bisectionLoop f eps fuel next.1 next.2.1 next.2.2.1 next.2.2.2

/-- The initial lower bracket end of Bisection.__call__: `min(x)` when a
bracket is given (whatever its orientation), else 0. -/
def bisectionLow (x : Option (ℚ × ℚ)) : ℚ :=
  match x with | some p => minQ p.1 p.2 | none => 0

/-- The initial upper bracket end of Bisection.__call__: `max(x)` when a
bracket is given, else 1. -/
def bisectionHigh (x : Option (ℚ × ℚ)) : ℚ :=
  match x with | some p => maxQ p.1 p.2 | none => 1

/-- Bisection.__call__: normalise the bracket orientation with min/max
(or start from [0, 1] when none is given), run the expansion phase, then
the bisection phase, and return the midpoint of the final bracket. -/
def Bisection_call (cfg : BisectionCfg) (f : ℚ → ℚ) (x : Option (ℚ × ℚ)) : ℚ :=
  let e := bisectionExpand f cfg.max_iter 0 (bisectionLow x) (bisectionHigh x) 0 0
  let b := bisectionLoop f cfg.eps cfg.max_iter e.1 e.2.1 e.2.2.1 e.2.2.2.1
  (b.1 + b.2) / 2

/-- A concrete monotone, sign-changing test function for Bisection:
`t ↦ t + 10`, whose only root is -10. -/
def bisectionTestF : ℚ → ℚ := fun t => t + 10

/-- penalties.L1.proj: feasible vectors are returned unchanged; otherwise
the source constructs `Bisection(force_negative=True, eps=1e-8)`, a call
that supplies a keyword the constructor does not accept, and then (were it
ever reached) bisects the inner function `l ↦ norm1(softthresh(beta_, l)) - c`
and soft-thresholds at the returned level. -/
def PenaltyL1.proj (P : PenaltyL1) (beta : List ℚ) : Except String (List ℚ) :=
  if P.feasible beta then Except.ok beta
  else
    match pythonKwargsCheck bisectionInitKeywords ["force_negative", "eps"] with
    | Except.error e => Except.error e
    | Except.ok _ =>
      let beta_ := beta.drop P.penalty_start
      let thresh := fun (l : ℚ) (b : ℚ) => (if l < absQ b then (1 : ℚ) else 0) * (b - l * signQ (b - l))
      let F := fun (l : ℚ) => norm1Q (beta_.map (thresh l)) - P.c
      let lv := Bisection_call ⟨1 / 10 ^ 8, 50, 1⟩ F (some (0, norm1Q beta_))
      Except.ok (beta_.map (thresh lv))

/-! ### parsimony.algorithms.FISTA -/

/-- The capabilities FISTA reads off the objective: a Lipschitz bound `L`,
a gradient oracle and a proximal oracle. -/
structure FistaObjective where
  L : ℚ
  grad : List ℚ → List ℚ
  prox : List ℚ → ℚ → List ℚ

/-- The constructor fields of parsimony.algorithms.FISTA. -/
structure FistaCfg where
  step : Option ℚ
  eps : ℚ
  max_iter : ℕ
  min_iter : ℕ

/-- The iteration loop of FISTA.__call__, for `i = 1 .. max_iter` (the fuel
counts the remaining iterations):
`z = betanew + ((i - 2)/(i + 1)) * (betanew - betaold)`, then
`betanew = prox(z - step * grad(z), step)`, with exit when
`(1/step) * norm(betanew - z) < eps` and `i >= min_iter`.  The stopping
test is encoded as `normLtQ (betanew - z) (eps * step)`, which for a
positive step (the only reachable regime: the default step is `1/L()` with
`L > 0`) is exactly `(1/step) * norm(betanew - z) < eps`. -/
def fistaLoop (F : FistaObjective) (step eps : ℚ) (minIter : ℕ) :
    ℕ → ℕ → List ℚ → List ℚ → List ℚ
  | 0, _, _, betanew => betanew
  | fuel + 1, i, betaold, betanew =>
    let z := vadd betanew (smul (((i : ℚ) - 2) / ((i : ℚ) + 1)) (vsub betanew betaold))
    let betanext := F.prox (vsub z (smul step (F.grad z))) step
    if normLtQ (vsub betanext z) (eps * step) ∧ minIter ≤ i then betanext
    else fistaLoop F step eps minIter fuel (i + 1) betanew betanext

/-- The step size a FISTA call actually uses: the configured one, or the
default `1/function.L()` when none is configured. -/
def fistaStep (cfg : FistaCfg) (F : FistaObjective) : ℚ :=
  match cfg.step with | none => 1 / F.L | some s => s

/-- FISTA.__call__: when `self.step` is None it is ASSIGNED `1/function.L()`
(a mutation of the algorithm object that survives the call; the second
component returns the fields as they stand after the call), then the loop
starts from `z = betanew = betaold = beta`. -/
def FISTA_call (cfg : FistaCfg) (F : FistaObjective) (beta : List ℚ) :
    List ℚ × FistaCfg :=
  let step : ℚ := fistaStep cfg F
  (fistaLoop F step cfg.eps cfg.min_iter cfg.max_iter 1 beta beta,
   { cfg with step := some step })

/-- The FISTA iterate sequence exactly as the spec writes it:
`beta_0 = beta_1 =` start vector, and
`beta_{i+1} = prox(z_i - step * grad(z_i), step)` with
`z_i = beta_i + ((i - 2)/(i + 1)) * (beta_i - beta_{i-1})`. -/
def fistaSpecBeta (F : FistaObjective) (step : ℚ) (beta0 : List ℚ) : ℕ → List ℚ
  | 0 => beta0
  | 1 => beta0
  | i + 2 =>
    let bi := fistaSpecBeta F step beta0 (i + 1)
    let bim := fistaSpecBeta F step beta0 i
    let z := vadd bi (smul ((((i + 1 : ℕ) : ℚ) - 2) / (((i + 1 : ℕ) : ℚ) + 1)) (vsub bi bim))
    F.prox (vsub z (smul step (F.grad z))) step

/-- The extrapolation point of spec iteration `j`:
`z_j = beta_j + ((j - 2)/(j + 1)) * (beta_j - beta_{j-1})`. -/
def fistaSpecZ (F : FistaObjective) (step : ℚ) (beta0 : List ℚ) (j : ℕ) : List ℚ :=
  vadd (fistaSpecBeta F step beta0 j)
    (smul (((j : ℚ) - 2) / ((j : ℚ) + 1))
      (vsub (fistaSpecBeta F step beta0 j) (fistaSpecBeta F step beta0 (j - 1))))

/-- The successful-termination test of spec iteration `j`:
`(1/step) * norm(beta_{j+1} - z_j) < eps` (encoded through `normLtQ`, exact
for positive step) together with `j >= min_iter`. -/
def fistaStops (F : FistaObjective) (step eps : ℚ) (minIter : ℕ)
    (beta0 : List ℚ) (j : ℕ) : Prop :=
  normLtQ (vsub (fistaSpecBeta F step beta0 (j + 1)) (fistaSpecZ F step beta0 j))
      (eps * step) ∧ minIter ≤ j

instance (F : FistaObjective) (step eps : ℚ) (minIter : ℕ) (beta0 : List ℚ) (j : ℕ) :
    Decidable (fistaStops F step eps minIter beta0 j) := by
  unfold fistaStops; infer_instance

/-! ### parsimony.algorithms.CONESTA -/

/-- The capabilities CONESTA reads off the objective.  The smoothing
constant mu, which the source stores on the objective through
set_mu/get_mu, is threaded explicitly: every mu-dependent method takes the
currently installed mu as its first argument. -/
structure ConestaObjective where
  L : ℚ → ℚ
  grad : ℚ → List ℚ → List ℚ
  prox : List ℚ → ℚ → List ℚ
  gap : ℚ → List ℚ → ℚ
  mu_opt : ℚ → ℚ
  eps_opt : ℚ → ℚ
  eps_max : ℚ → ℚ
  estimate_mu : List ℚ → ℚ

/-- The constructor fields of parsimony.algorithms.CONESTA. -/
structure ConestaCfg where
  mu_start : Option ℚ
  mu_min : ℚ
  tau : ℚ
  dynamic : Bool
  continuations : ℕ
  eps : ℚ
  max_iter : ℕ
  min_iter : ℕ

/-- The quantities CONESTA.__call__ carries across outer iterations:
the iterate, `mu[-1]`, the (mutated) `self.mu_min` field, `tmin`, the gap
estimate `G` and the outer iteration counter `i`. -/
structure ConestaState where
  beta : List ℚ
  mu : ℚ
  mu_min : ℚ
  tmin : ℚ
  G : ℚ
  i : ℕ

/-- Lines 507-515 of algorithms.py (dynamic mode): the recomputed gap is
replaced by its absolute value ("just in case"), kept if it improves on
the PREVIOUS estimate, and otherwise the previous estimate is decayed by
tau. -/
def dynamicGapUpdate (tau G gapval : ℚ) : ℚ :=
  let G_new := absQ gapval
  if G_new < G then G_new else tau * G

/-- Lines 456-476 of CONESTA.__call__: the initial mu (mu_start, or
0.9 * estimate_mu), tmin = 1/L at mu_min, max_eps = eps_max(mu[0]) and
G = min(max_eps, eps_opt(mu[0])).  Returns the initial state plus max_eps. -/
def conestaInit (cfg : ConestaCfg) (F : ConestaObjective) (beta : List ℚ) :
    ConestaState × ℚ :=
  let mu0 : ℚ := match cfg.mu_start with
    | some m => m
    | none => (9 / 10) * F.estimate_mu beta
  let tmin := 1 / F.L cfg.mu_min
  let max_eps := F.eps_max mu0
  ({ beta := beta, mu := mu0, mu_min := cfg.mu_min, tmin := tmin,
     G := minQ max_eps (F.eps_opt mu0), i := 0 }, max_eps)

/-- Line 480: the inner FISTA step size `tnew = 1/function.L()` at the
current mu. -/
def conestaTnew (F : ConestaObjective) (s : ConestaState) : ℚ := 1 / F.L s.mu

/-- Lines 480-488: the iterate returned by the inner FISTA run at step
tnew and tolerance `eps_plus = min(max_eps, eps_opt(mu[-1]))` (set_params
rewrites the inner FISTA fields before every run). -/
def conestaBeta1 (cfg : ConestaCfg) (F : ConestaObjective) (max_eps : ℚ)
    (s : ConestaState) : List ℚ :=
  (FISTA_call ⟨some (conestaTnew F s), minQ max_eps (F.eps_opt s.mu),
      cfg.max_iter, cfg.min_iter⟩ ⟨F.L s.mu, F.grad s.mu, F.prox⟩ s.beta).1

/-- Line 490: `self.mu_min = min(self.mu_min, mu[-1])`. -/
def conestaMuMin1 (s : ConestaState) : ℚ := minQ s.mu_min s.mu

/-- Line 491: `tmin = min(tmin, tnew)`. -/
def conestaTmin1 (F : ConestaObjective) (s : ConestaState) : ℚ :=
  minQ s.tmin (conestaTnew F s)

/-- Lines 492-496: the exploratory ISTA step at mu_min,
`beta_tilde = prox(beta - tmin * grad(beta), tmin)` with mu_min installed
during the gradient evaluation. -/
def conestaBetaTilde (cfg : ConestaCfg) (F : ConestaObjective) (max_eps : ℚ)
    (s : ConestaState) : List ℚ :=
  F.prox (vsub (conestaBeta1 cfg F max_eps s)
      (smul (conestaTmin1 F s) (F.grad (conestaMuMin1 s) (conestaBeta1 cfg F max_eps s))))
    (conestaTmin1 F s)

/-- Lines 498-503: the stopping flag,
`(1/tmin) * norm(beta - beta_tilde) < eps or i >= continuations` (the norm
test is encoded through `normLtQ`, exact for positive tmin). -/
def conestaStopFlag (cfg : ConestaCfg) (F : ConestaObjective) (max_eps : ℚ)
    (s : ConestaState) : Prop :=
  normLtQ (vsub (conestaBeta1 cfg F max_eps s) (conestaBetaTilde cfg F max_eps s))
      (cfg.eps * conestaTmin1 F s) ∨ cfg.continuations ≤ s.i

instance (cfg : ConestaCfg) (F : ConestaObjective) (max_eps : ℚ) (s : ConestaState) :
    Decidable (conestaStopFlag cfg F max_eps s) := by
  unfold conestaStopFlag; infer_instance

/-- Lines 507-520: the updated gap estimate (dynamic or static mode). -/
def conestaG1 (cfg : ConestaCfg) (F : ConestaObjective) (max_eps : ℚ)
    (s : ConestaState) : ℚ :=
  if cfg.dynamic then
    dynamicGapUpdate cfg.tau s.G (F.gap s.mu (conestaBeta1 cfg F max_eps s))
  else cfg.tau * s.G

/-- Line 531: the break test
`(G <= TOLERANCE and mu[-1] <= TOLERANCE) or stop`. -/
def conestaBreak (cfg : ConestaCfg) (F : ConestaObjective) (max_eps : ℚ)
    (s : ConestaState) : Prop :=
  (conestaG1 cfg F max_eps s ≤ TOLERANCE ∧ s.mu ≤ TOLERANCE) ∨
    conestaStopFlag cfg F max_eps s

instance (cfg : ConestaCfg) (F : ConestaObjective) (max_eps : ℚ) (s : ConestaState) :
    Decidable (conestaBreak cfg F max_eps s) := by
  unfold conestaBreak; infer_instance

/-- One outer iteration of CONESTA.__call__ (lines 477-542): run the inner
FISTA, lower `self.mu_min` and `tmin`, take the exploratory ISTA step,
update the gap estimate, and either break or install
`mu_new = min(mu[-1], mu_opt(G))` on the objective while appending
`max(self.mu_min, mu_new)` to the mu list (with self.mu_min already
lowered to `min(self.mu_min, mu_new)`).  Returns the new state, whether the
loop broke, and the mu installed on the objective by the last executed
set_mu (line 496 keeps mu[-1] installed when the loop breaks; line 540
installs mu_new otherwise). -/
def conestaStep (cfg : ConestaCfg) (F : ConestaObjective) (max_eps : ℚ)
    (s : ConestaState) : ConestaState × Bool × ℚ :=
  if conestaBreak cfg F max_eps s then
    ({ s with
       beta := conestaBeta1 cfg F max_eps s
       mu_min := conestaMuMin1 s
       tmin := conestaTmin1 F s
       G := conestaG1 cfg F max_eps s }, true, s.mu)
  else
    let mu_new := minQ s.mu (F.mu_opt (conestaG1 cfg F max_eps s))
    let mu_min2 := minQ (conestaMuMin1 s) mu_new
    ({ beta := conestaBeta1 cfg F max_eps s
       mu := maxQ mu_min2 mu_new
       mu_min := mu_min2
       tmin := conestaTmin1 F s
       G := conestaG1 cfg F max_eps s
       i := s.i + 1 }, false, mu_new)

/-- A concrete CONESTA objective used to evaluate one outer iteration:
constant Lipschitz bound 1, constant gradient (1), identity prox, recomputed
gap 7, mu_opt constantly 1/2, eps_opt and eps_max constantly 10. -/
def conestaTestObjective : ConestaObjective :=
  { L := fun _ => 1, grad := fun _ _ => [1], prox := fun x _ => x,
    gap := fun _ _ => 7, mu_opt := fun _ => 1/2, eps_opt := fun _ => 10,
    eps_max := fun _ => 10, estimate_mu := fun _ => 1 }

/-- A concrete CONESTA configuration: mu_start 4, mu_min 1, tau 1/2,
dynamic mode, 30 continuations, eps 1/1000, one inner iteration. -/
def conestaTestCfg : ConestaCfg :=
  { mu_start := some 4, mu_min := 1, tau := 1/2, dynamic := true,
    continuations := 30, eps := 1/1000, max_iter := 1, min_iter := 1 }

/-- A concrete CONESTA state entering an outer iteration: iterate (4),
mu 4, mu_min 1, tmin 1, gap estimate 10, first outer iteration. -/
def conestaTestState : ConestaState :=
  { beta := [4], mu := 4, mu_min := 1, tmin := 1, G := 10, i := 0 }

/-! ### parsimony.algorithms.ExcessiveGapMethod -/

/-- The capabilities the Excessive Gap Method reads off the objective:
the Lipschitz bound `L` of the coupling, the dual bound `M = h.M()`, the
row dimensions of the operators `A_i` (giving the zero dual blocks), the
smoothed dual point `h.alpha(beta)` at an installed mu, the dual minimiser
`betahat(u)` and the gradient map `V(u, beta, L)` (betahat and V do not
read mu in the source). -/
structure EgmObjective where
  L : ℚ
  M : ℚ
  dualDims : List ℕ
  alpha : ℚ → List ℚ → List (List ℚ)
  betahat : List (List ℚ) → List ℚ
  V : List (List ℚ) → List ℚ → ℚ → List (List ℚ)

/-- The constructor fields of parsimony.algorithms.ExcessiveGapMethod. -/
structure EgmCfg where
  eps : ℚ
  max_iter : ℕ
  min_iter : ℕ

/-- The quantities the EGM loop carries: dual blocks u, primal iterate
beta, dual iterate alpha, and the current smoothing constant mu. -/
structure EgmState where
  u : List (List ℚ)
  beta : List ℚ
  alpha : List (List ℚ)
  mu : ℚ

/-- Lines 613-626 of ExcessiveGapMethod.__call__: dual blocks initialised
to zero vectors of the operator row dimensions, `mu_0 = 2 L`,
`beta_0 = betahat(u)` and `alpha = V(u, beta_0, L)` (the set_mu on line 623
is passed the whole python list; nothing reads mu before the loop installs
the scalar mu[k], and betahat/V do not read mu). -/
def egmInit (F : EgmObjective) : EgmState :=
  let u0 := F.dualDims.map (fun d => List.replicate d (0 : ℚ))
  let beta0 := F.betahat u0
  { u := u0
    beta := beta0
    alpha := F.V u0 beta0 F.L
    mu := 2 * F.L }

/-- Lines 638-648, one loop body at counter k: `tau = 2/(k+3)`,
`alpha_hat = h.alpha(beta)` under mu_k,
`u = (1 - tau) * alpha + tau * alpha_hat` blockwise,
`mu_{k+1} = (1 - tau) * mu_k`, `beta = (1 - tau) * beta + tau * betahat(u)`
and `alpha = V(u, betahat(u), L)`. -/
def egmBody (F : EgmObjective) (k : ℕ) (s : EgmState) : EgmState :=
  let tau : ℚ := 2 / ((k : ℚ) + 3)
  let alpha_hat := F.alpha s.mu s.beta
  let u1 := List.zipWith (fun a ah => vadd (smul (1 - tau) a) (smul tau ah)) s.alpha alpha_hat
  let bh := F.betahat u1
  { u := u1
    beta := vadd (smul (1 - tau) s.beta) (smul tau bh)
    alpha := F.V u1 bh F.L
    mu := (1 - tau) * s.mu }

/-- The while-True loop of ExcessiveGapMethod.__call__: each pass runs the
body and exits when `ulim = mu_{k+1} * M(h) < eps` or `k >= max_iter`
(the fuel exceeds max_iter, so the source loop never outruns it). -/
def egmLoop (F : EgmObjective) (eps : ℚ) (maxIter : ℕ) :
    ℕ → ℕ → EgmState → List ℚ
  | 0, _, s => s.beta
  | fuel + 1, k, s =>
    let s1 := egmBody F k s
    if s1.mu * F.M < eps ∨ maxIter ≤ k then s1.beta
    else egmLoop F eps maxIter fuel (k + 1) s1

/-- ExcessiveGapMethod.__call__. -/
def EGM_call (cfg : EgmCfg) (F : EgmObjective) : List ℚ :=
  egmLoop F cfg.eps cfg.max_iter (cfg.max_iter + 1) 0 (egmInit F)

/-- The spec-side EGM state sequence: the initial state followed by
repeated loop bodies. -/
def egmSeq (F : EgmObjective) : ℕ → EgmState
  | 0 => egmInit F
  | k + 1 => egmBody F k (egmSeq F k)

/-- The stopping test after body k:
`ulim = mu_{k+1} * M < eps` or `k >= max_iter`. -/
def egmStop (F : EgmObjective) (eps : ℚ) (maxIter k : ℕ) : Prop :=
  (egmSeq F (k + 1)).mu * F.M < eps ∨ maxIter ≤ k

instance (F : EgmObjective) (eps : ℚ) (maxIter k : ℕ) :
    Decidable (egmStop F eps maxIter k) := by
  unfold egmStop; infer_instance

/-- A concrete EGM objective: one dual block of dimension 1, L = 1, M = 1,
all oracles constantly zero. -/
def egmTestObjective : EgmObjective :=
  { L := 1, M := 1, dualDims := [1], alpha := fun _ _ => [[0]],
    betahat := fun _ => [0], V := fun _ _ _ => [[0]] }

/-! ### multiblock.prox_ops.L1 -/

/-- The soft-threshold map per entry, `sign(v) * max(|v| - l, 0)`.  This
is what ONE pass of multiblock L1.prox computes when the shared buffer
still holds the pristine input - in particular the first pass - and what
re-applying the threshold to the input would give on a retry. -/
def mbSoftThreshold (x : List ℚ) (l : ℚ) : List ℚ :=
  x.map (fun v => signQ v * (if absQ v - l < 0 then 0 else absQ v - l))

/-- The state of the shared numpy buffer after one pass of the loop body
of multiblock L1.prox.  `x = xorig` makes `x` an ALIAS of `xorig`, so
`np.absolute(x, x)`, `x -= l` and `x[x < 0] = 0` all mutate the shared
storage in place, leaving it holding `max(|b| - l, 0)` entrywise; the
final `x = np.multiply(sign, x)` allocates a fresh array and does not
touch the buffer. -/
def mbPassBuffer (b : List ℚ) (l : ℚ) : List ℚ :=
  b.map (fun v => if absQ v - l < 0 then 0 else absQ v - l)

/-- The vector a pass of multiblock L1.prox tests and possibly returns:
`sign = np.sign(x)` is taken from the buffer at pass entry, then
multiplied onto the thresholded magnitudes. -/
def mbPassResult (b : List ℚ) (l : ℚ) : List ℚ :=
  List.zipWith (fun s v => s * v) (b.map (fun v => signQ v)) (mbPassBuffer b l)

/-- The while-True retry loop of multiblock L1.prox: exit when
`norm(x) > TOLERANCE or allow_empty` (encoded by squaring:
`TOLERANCE ^ 2 < normSq x`, exact since both sides of the source
comparison are nonnegative), otherwise shrink the threshold by 5 percent
(`l *= 0.95`) and retry.  Because `x = xorig` does NOT copy, the next
pass runs on the buffer as the previous pass left it (`mbPassBuffer`),
not on the pristine input.  The source loop has NO iteration cap, so the
embedding is fuel-indexed: `none` means the loop has not exited within
`fuel` passes.  On exit it returns the result, the final threshold, and
whether any shrinkage happened (the condition under which the source
issues its warning). -/
def mbL1loop (b : List ℚ) (allowEmpty : Bool) : ℕ → ℚ → Option (List ℚ × ℚ × Bool)
  | 0, _ => none
  | fuel + 1, l =>
    if TOLERANCE ^ 2 < normSq (mbPassResult b l) ∨ allowEmpty = true then
      some (mbPassResult b l, l, false)
    else (mbL1loop (mbPassBuffer b l) allowEmpty fuel (l * (95 / 100))).map
      (fun r => (r.1, r.2.1, true))

/-- Termination of the multiblock L1.prox retry loop, started on the
fresh copy `xorig = x.copy()` of the input: some finite number of passes
makes it exit. -/
def mbL1terminates (xorig : List ℚ) (l : ℚ) (allowEmpty : Bool) : Prop :=
  ∃ fuel, (mbL1loop xorig allowEmpty fuel l).isSome

/-! ### multiblock.prox_ops.L0_by_count -/

/-- The maximum entry of a rational list (0 on the empty list; numpy
argmax rejects empty input, and every reachable call below is on a
nonempty list). -/
def listMaxQ : List ℚ → ℚ
  | [] => 0
  | [v] => v
  | v :: w :: t => maxQ v (listMaxQ (w :: t))

/-- np.argmax: the FIRST index attaining the maximum (ties broken by the
first-encountered index). -/
def argmaxIdx : List ℚ → ℕ
  | [] => 0
  | [_] => 0
  | v :: w :: t => if listMaxQ (w :: t) ≤ v then 0 else argmaxIdx (w :: t) + 1

/-- The repeated argmax-and-mask selection of L0_by_count.prox: pick the
first maximum, overwrite it, repeat.  The source masks with float -inf;
the mask value -1 is a faithful stand-in because the masked list holds
absolute values, all nonnegative, so a masked slot can never win another
argmax while unmasked slots remain. -/
def selectTopIdx (cp : List ℚ) : ℕ → List ℕ
  | 0 => []
  | n + 1 => argmaxIdx cp :: selectTopIdx (cp.set (argmaxIdx cp) (-1)) n

/-- multiblock L0_by_count.prox: clamp the target count to
[1, len(x)], normalise (self.normaliser is never initialised — the
assignment in ProxOp.__init__ is commented out — so the default
normaliser=None path raises AttributeError), select the target_num
largest-magnitude entries by repeated argmax-and-mask, set the level l to
the magnitude of the LAST selected entry, and zero every entry of
magnitude STRICTLY below l (entries tied with l all survive). -/
def L0_by_count_prox (num : ℕ) (x : List ℚ) (normaliser : Option (List ℚ → ℚ)) :
    Except String (List ℚ) :=
  let target := max (min num x.length) 1
  match normaliser with
  | none => Except.error "AttributeError: L0_by_count object has no attribute normaliser"
  | some nf =>
    let xn := x.map (fun v => v / nf x)
    let cp := xn.map (fun v => absQ v)
    let ind := selectTopIdx cp target
    let l := absQ (xn.getD (ind.getLast?.getD 0) 0)
    Except.ok (xn.map (fun v => if absQ v < l then 0 else v))

/-- The number of nonzero entries of a vector (norm0). -/
def countNonzero (v : List ℚ) : ℕ := (v.filter (fun a => a ≠ 0)).length

/-- Proof infrastructure for the selection analysis: `cp'` is `cp` with
the slots listed in `S` masked to -1, `S` lists distinct in-range indices,
and every masked slot dominates every unmasked one (the selection has
always picked maxima so far). -/
def maskInv (cp cp' : List ℚ) (S : List ℕ) : Prop :=
  cp'.length = cp.length ∧ S.Nodup ∧
    (∀ i ∈ S, i < cp.length ∧ cp'.getD i 0 = -1) ∧
    (∀ i, i < cp.length → i ∉ S → cp'.getD i 0 = cp.getD i 0) ∧
    (∀ i ∈ S, ∀ j, j < cp.length → j ∉ S → cp.getD j 0 < cp.getD i 0)

/-! ### Theorems for claims C4 and C10 -/

/-- Pointwise form of the source soft threshold: for a nonnegative
threshold it agrees with the spec formula sign(x) * max(|x| - t, 0). -/
theorem sourceThreshold_eq_spec (l b : ℚ) (hl : 0 ≤ l) :
    (if l < absQ b then (1 : ℚ) else 0) * (b - l * signQ (b - l)) = softThresholdSpec l b := by
  rw [absQ_eq_abs]
  unfold softThresholdSpec signQ
  by_cases h : l < |b|
  · rw [if_pos h]
    have hmax : max (|b| - l) 0 = |b| - l := max_eq_left (by linarith)
    rw [hmax]
    rcases lt_trichotomy b 0 with hb | hb | hb
    · have habs : |b| = -b := abs_of_neg hb
      have hbl : b - l < 0 := by linarith
      rw [if_neg (by linarith : ¬ 0 < b - l), if_pos hbl,
        if_neg (by linarith : ¬ 0 < b), if_pos hb, habs]
      ring
    · exfalso
      rw [hb] at h
      simp only [abs_zero] at h
      linarith
    · have habs : |b| = b := abs_of_pos hb
      have hbl : 0 < b - l := by rw [habs] at h; linarith
      rw [if_pos hbl, if_pos hb, habs]
      ring
  · rw [if_neg h]
    have hmax : max (|b| - l) 0 = 0 := max_eq_right (by linarith [not_lt.mp h])
    rw [hmax]
    ring

/-- Claim C4: for every vector and nonnegative effective threshold
`t = l * factor`, the L1 proximal operator returns exactly
`sign(x_i) * max(|x_i| - t, 0)` on the penalised entries, and the entries
before penalty_start pass through untouched. -/
theorem L1_prox_soft_threshold (P : PenaltyL1) (beta : List ℚ) (factor : ℚ)
    (hl : 0 ≤ P.l * factor) (i : ℕ) (hi : i < beta.length) :
    (P.prox beta factor).getD i 0 =
      if i < P.penalty_start then beta.getD i 0
      else softThresholdSpec (P.l * factor) (beta.getD i 0) := by
  unfold PenaltyL1.prox
  by_cases h : i < P.penalty_start
  · have hlen : i < (beta.take P.penalty_start).length := by
      simp [List.length_take]; omega
    rw [List.getD_eq_getElem?_getD, List.getElem?_append_left hlen]
    simp [List.getElem?_take, h, List.getD_eq_getElem?_getD]
  · have hps : P.penalty_start ≤ i := Nat.le_of_not_lt h
    have hpsl : P.penalty_start ≤ beta.length := le_trans hps (Nat.le_of_lt hi)
    have hlen : (beta.take P.penalty_start).length = P.penalty_start := by
      simp [List.length_take, Nat.min_eq_left hpsl]
    have hge : (beta.take P.penalty_start).length ≤ i := by rw [hlen]; exact hps
    rw [List.getD_eq_getElem?_getD, List.getElem?_append_right hge, hlen]
    have hidx : i - P.penalty_start < (beta.drop P.penalty_start).length := by
      simp [List.length_drop]; omega
    rw [List.getElem?_map]
    have hdrop : (beta.drop P.penalty_start)[i - P.penalty_start]? =
        beta[i]? := by
      rw [List.getElem?_drop]
      congr 1
      omega
    rw [hdrop]
    have hbi : beta[i]? = some (beta.getD i 0) := by
      rw [List.getD_eq_getElem?_getD]
      cases hb : beta[i]? with
      | none => exact absurd (List.getElem?_eq_none_iff.mp hb) (by omega)
      | some v => simp
    rw [hbi]
    simp only [Option.map_some, Option.getD_some, if_neg h]
    exact sourceThreshold_eq_spec _ _ hl

/-- Witness for C4 at a concrete input: `x = (3, -2, 1/4)`, `l = 1`,
`factor = 1`, `penalty_start = 1`; entry 0 passes through, entry 1 is
soft-thresholded to -1. -/
theorem L1_prox_soft_threshold_witness :
    (0 : ℚ) ≤ (1 : ℚ) * 1 ∧ (1 : ℕ) < 3 ∧
      (PenaltyL1.prox ⟨1, 0, 1⟩ [3, -2, 1/4] 1).getD 1 0 =
        (if (1 : ℕ) < 1 then ([3, -2, 1/4] : List ℚ).getD 1 0
         else softThresholdSpec ((1 : ℚ) * 1) (([3, -2, 1/4] : List ℚ).getD 1 0)) :=
  ⟨by norm_num, by norm_num,
    L1_prox_soft_threshold ⟨1, 0, 1⟩ [3, -2, 1/4] 1 (by norm_num) 1 (by norm_num)⟩

/-- Claim C10: L1.proj returns feasible vectors unchanged, and on any
infeasible vector it raises a TypeError, because it constructs Bisection
with the keyword force_negative that the constructor does not accept. -/
theorem L1_proj_feasible_or_raises (P : PenaltyL1) (beta : List ℚ) :
    P.proj beta = if P.feasible beta then Except.ok beta
      else Except.error "TypeError: unexpected keyword argument force_negative" := by
  unfold PenaltyL1.proj
  by_cases h : P.feasible beta
  · simp [h]
  · simp only [if_neg h]
    rfl

/-- Witness for C10: the vector (2, 2) is infeasible for c = 1, and proj
raises; the vector (1/2) is feasible and passes through unchanged. -/
theorem L1_proj_feasible_or_raises_witness :
    PenaltyL1.proj ⟨1, 1, 0⟩ [2, 2] =
        Except.error "TypeError: unexpected keyword argument force_negative" ∧
      PenaltyL1.proj ⟨1, 1, 0⟩ [1/2] = Except.ok [1/2] := by
  constructor
  · rw [L1_proj_feasible_or_raises, if_neg]
    norm_num [PenaltyL1.feasible, norm1Q, absQ]
  · rw [L1_proj_feasible_or_raises, if_pos]
    norm_num [PenaltyL1.feasible, norm1Q, absQ]

/-! ### Claim C1: the FISTA iteration -/

/-- Unfolding of the spec sequence: for `1 ≤ j`, the next iterate is the
proximal-gradient step taken from the extrapolation point `z_j`. -/
theorem fistaSpecBeta_succ (F : FistaObjective) (step : ℚ) (beta0 : List ℚ)
    (j : ℕ) (hj : 1 ≤ j) :
    fistaSpecBeta F step beta0 (j + 1) =
      F.prox (vsub (fistaSpecZ F step beta0 j)
        (smul step (F.grad (fistaSpecZ F step beta0 j)))) step := by
  cases j with
  | zero => omega
  | succ i =>
    show fistaSpecBeta F step beta0 (i + 2) = _
    rw [fistaSpecZ]
    simp only [fistaSpecBeta, Nat.add_sub_cancel]

/-- One unfolding of the source loop along the spec sequence: entering
iteration `j ≥ 1` with `(betaold, betanew) = (beta_{j-1}, beta_j)` either
stops with `beta_{j+1}` or continues with `(beta_j, beta_{j+1})`. -/
theorem fistaLoop_unfold (F : FistaObjective) (step eps : ℚ) (minIter : ℕ)
    (beta0 : List ℚ) (fuel j : ℕ) (hj : 1 ≤ j) :
    fistaLoop F step eps minIter (fuel + 1) j
        (fistaSpecBeta F step beta0 (j - 1)) (fistaSpecBeta F step beta0 j) =
      if fistaStops F step eps minIter beta0 j then fistaSpecBeta F step beta0 (j + 1)
      else fistaLoop F step eps minIter fuel (j + 1)
        (fistaSpecBeta F step beta0 j) (fistaSpecBeta F step beta0 (j + 1)) := by
  rw [fistaLoop]
  have hz : vadd (fistaSpecBeta F step beta0 j)
      (smul (((j : ℚ) - 2) / ((j : ℚ) + 1))
        (vsub (fistaSpecBeta F step beta0 j) (fistaSpecBeta F step beta0 (j - 1)))) =
      fistaSpecZ F step beta0 j := by
    rw [fistaSpecZ]
  rw [hz, ← fistaSpecBeta_succ F step beta0 j hj]
  rfl

/-- If no iteration in `[j, j + fuel)` meets the stopping test, the loop
exhausts its fuel and returns `beta_{j + fuel}`. -/
theorem fistaLoop_no_stop (F : FistaObjective) (step eps : ℚ) (minIter : ℕ)
    (beta0 : List ℚ) :
    ∀ fuel j, 1 ≤ j →
      (∀ k, j ≤ k → k < j + fuel → ¬ fistaStops F step eps minIter beta0 k) →
      fistaLoop F step eps minIter fuel j
          (fistaSpecBeta F step beta0 (j - 1)) (fistaSpecBeta F step beta0 j) =
        fistaSpecBeta F step beta0 (j + fuel) := by
  intro fuel
  induction fuel with
  | zero => intro j _ _; rfl
  | succ n ih =>
    intro j hj hN
    rw [fistaLoop_unfold F step eps minIter beta0 n j hj,
      if_neg (hN j le_rfl (by omega))]
    have h1 : fistaSpecBeta F step beta0 j = fistaSpecBeta F step beta0 ((j + 1) - 1) := by
      simp
    rw [h1]
    rw [ih (j + 1) (by omega) (fun k hk1 hk2 => hN k (by omega) (by omega))]
    congr 1
    omega

/-- If `K` is the first stopping iteration at or after `j` and the fuel
reaches it, the loop returns `beta_{K+1}`. -/
theorem fistaLoop_stop (F : FistaObjective) (step eps : ℚ) (minIter : ℕ)
    (beta0 : List ℚ) :
    ∀ fuel j K, 1 ≤ j → j ≤ K → K < j + fuel →
      fistaStops F step eps minIter beta0 K →
      (∀ k, j ≤ k → k < K → ¬ fistaStops F step eps minIter beta0 k) →
      fistaLoop F step eps minIter fuel j
          (fistaSpecBeta F step beta0 (j - 1)) (fistaSpecBeta F step beta0 j) =
        fistaSpecBeta F step beta0 (K + 1) := by
  intro fuel
  induction fuel with
  | zero => intro j K _ _ h; omega
  | succ n ih =>
    intro j K hj hjK hKfuel hK hN
    rcases eq_or_lt_of_le hjK with heq | hlt
    · subst heq
      rw [fistaLoop_unfold F step eps minIter beta0 n j hj, if_pos hK]
    · rw [fistaLoop_unfold F step eps minIter beta0 n j hj,
        if_neg (hN j le_rfl hlt)]
      have h1 : fistaSpecBeta F step beta0 j = fistaSpecBeta F step beta0 ((j + 1) - 1) := by
        simp
      rw [h1]
      exact ih (j + 1) K (by omega) (by omega) (by omega) hK
        (fun k hk1 hk2 => hN k (by omega) hk2)

/-- Claim C1: with the step defaulting to `1/L()`, every FISTA run follows
the spec recurrence `z_j = beta_j + ((j-2)/(j+1))(beta_j - beta_{j-1})`,
`beta_{j+1} = prox(z_j - step*grad(z_j), step)`, stops successfully exactly
at the first iteration `K` whose gradient-mapping test
`(1/step)*norm(beta_{K+1} - z_K) < eps` fires at or after `min_iter`, and
when no iteration up to `max_iter` meets the test it still returns the last
iterate `beta_{max_iter + 1}` (no error is possible: the call is total). -/
theorem FISTA_iterates_spec (F : FistaObjective) (cfg : FistaCfg) (beta : List ℚ)
    (K : ℕ) (hstep : 0 < fistaStep cfg F)
    (hK1 : 1 ≤ K) (hK2 : K ≤ cfg.max_iter)
    (hK : fistaStops F (fistaStep cfg F) cfg.eps cfg.min_iter beta K ∨ K = cfg.max_iter)
    (hN : ∀ k, 1 ≤ k → k < K →
      ¬ fistaStops F (fistaStep cfg F) cfg.eps cfg.min_iter beta k) :
    (FISTA_call cfg F beta).1 =
      fistaSpecBeta F (fistaStep cfg F) beta (K + 1) := by
  unfold FISTA_call
  set step := fistaStep cfg F with hstepdef
  show fistaLoop F step cfg.eps cfg.min_iter cfg.max_iter 1 beta beta = _
  by_cases hstop : fistaStops F step cfg.eps cfg.min_iter beta K
  · exact fistaLoop_stop F step cfg.eps cfg.min_iter beta cfg.max_iter 1 K
      le_rfl hK1 (by omega) hstop (fun k hk1 hk2 => hN k hk1 hk2)
  · have hKmax : K = cfg.max_iter := by
      rcases hK with h | h
      · exact absurd h hstop
      · exact h
    subst hKmax
    have := fistaLoop_no_stop F step cfg.eps cfg.min_iter beta cfg.max_iter 1 le_rfl
      (fun k hk1 hk2 => by
        rcases eq_or_lt_of_le (show k ≤ cfg.max_iter by omega) with he | hl
        · subst he; exact hstop
        · exact hN k hk1 hl)
    calc fistaLoop F step cfg.eps cfg.min_iter cfg.max_iter 1 beta beta
        = fistaSpecBeta F step beta (1 + cfg.max_iter) := this
      _ = fistaSpecBeta F step beta (cfg.max_iter + 1) := by rw [Nat.add_comm]

/-- Witness for C1 at a concrete run: objective with `L = 1`, gradient
`v ↦ v` and identity prox, start `(1)`, default step `1 = 1/L`, `eps = 2`:
the very first iteration maps to `(0)` and the stopping test fires, so the
run returns `beta_2 = (0)`. -/
theorem FISTA_iterates_spec_witness :
    0 < fistaStep ⟨none, 2, 5, 1⟩ ⟨1, fun v => v, fun x _ => x⟩ ∧
      fistaStops ⟨1, fun v => v, fun x _ => x⟩
        (fistaStep ⟨none, 2, 5, 1⟩ ⟨1, fun v => v, fun x _ => x⟩) 2 1 [1] 1 ∧
      (FISTA_call ⟨none, 2, 5, 1⟩ ⟨1, fun v => v, fun x _ => x⟩ [1]).1 =
        fistaSpecBeta ⟨1, fun v => v, fun x _ => x⟩
          (fistaStep ⟨none, 2, 5, 1⟩ ⟨1, fun v => v, fun x _ => x⟩) [1] 2 := by
  refine ⟨by norm_num [fistaStep], ?_, ?_⟩
  · norm_num [fistaStep, fistaStops, fistaSpecBeta, fistaSpecZ, normLtQ, normSq,
      vadd, vsub, smul]
  · exact FISTA_iterates_spec ⟨1, fun v => v, fun x _ => x⟩ ⟨none, 2, 5, 1⟩ [1] 1
      (by norm_num [fistaStep]) le_rfl (by norm_num)
      (Or.inl (by norm_num [fistaStep, fistaStops, fistaSpecBeta, fistaSpecZ, normLtQ, normSq,
        vadd, vsub, smul]))
      (fun k hk1 hk2 => absurd (lt_of_le_of_lt hk1 hk2) (lt_irrefl 1))

/-! ### Claims C2 and C3: the CONESTA gap and mu updates -/

/-- The dynamic gap update is nonnegative whenever tau and the previous
estimate are (the recomputed gap is clamped by absolute value). -/
theorem dynamicGapUpdate_nonneg (tau G g : ℚ) (h1 : 0 ≤ tau) (h2 : 0 ≤ G) :
    0 ≤ dynamicGapUpdate tau G g := by
  show 0 ≤ if absQ g < G then absQ g else tau * G
  split
  · rw [absQ_eq_abs]
    exact abs_nonneg g
  · exact mul_nonneg h1 h2

/-- The dynamic gap update strictly decreases a positive estimate when
tau < 1. -/
theorem dynamicGapUpdate_lt (tau G g : ℚ) (h1 : tau < 1) (h2 : 0 < G) :
    dynamicGapUpdate tau G g < G := by
  show (if absQ g < G then absQ g else tau * G) < G
  split
  · assumption
  · nlinarith

/-- Claim C2 (amended): after every dynamic-mode outer iteration, G equals
the absolute value of the recomputed gap when that improves on the previous
estimate, and otherwise the previous estimate decayed by tau (NOT the
minimum of the two); consequently G stays nonnegative whenever tau and the
previous estimate are nonnegative, and strictly decreases whenever the
previous estimate is positive and tau < 1. -/
theorem conesta_dynamic_gap_update (cfg : ConestaCfg) (F : ConestaObjective)
    (max_eps : ℚ) (s : ConestaState) (hdyn : cfg.dynamic = true) :
    (conestaStep cfg F max_eps s).1.G
        = dynamicGapUpdate cfg.tau s.G
            (F.gap s.mu (conestaStep cfg F max_eps s).1.beta)
      ∧ (0 ≤ cfg.tau → 0 ≤ s.G → 0 ≤ (conestaStep cfg F max_eps s).1.G)
      ∧ (cfg.tau < 1 → 0 < s.G → (conestaStep cfg F max_eps s).1.G < s.G) := by
  have hG : (conestaStep cfg F max_eps s).1.G = conestaG1 cfg F max_eps s := by
    unfold conestaStep
    split <;> rfl
  have hbeta : (conestaStep cfg F max_eps s).1.beta = conestaBeta1 cfg F max_eps s := by
    unfold conestaStep
    split <;> rfl
  have hG1 : conestaG1 cfg F max_eps s
      = dynamicGapUpdate cfg.tau s.G (F.gap s.mu (conestaBeta1 cfg F max_eps s)) := by
    unfold conestaG1
    rw [hdyn]
    rfl
  refine ⟨by rw [hG, hbeta, hG1], ?_, ?_⟩
  · intro h1 h2
    rw [hG, hG1]
    exact dynamicGapUpdate_nonneg _ _ _ h1 h2
  · intro h1 h2
    rw [hG, hG1]
    exact dynamicGapUpdate_lt _ _ _ h1 h2

/-- Witness for the amended C2 on a concrete outer iteration. -/
theorem conesta_dynamic_gap_update_witness :
    conestaTestCfg.dynamic = true ∧ 0 ≤ conestaTestCfg.tau ∧
      0 ≤ conestaTestState.G ∧
      0 ≤ (conestaStep conestaTestCfg conestaTestObjective 10 conestaTestState).1.G :=
  ⟨rfl, by norm_num [conestaTestCfg], by norm_num [conestaTestState],
    (conesta_dynamic_gap_update conestaTestCfg conestaTestObjective 10
        conestaTestState rfl).2.1
      (by norm_num [conestaTestCfg]) (by norm_num [conestaTestState])⟩

/-- Counterexample to C2 as stated: on a concrete outer iteration with
previous estimate G = 10, tau = 1/2 and recomputed gap 7, the code keeps
G = 7 (7 improves on 10), while the better (smaller) of |gap| and
tau * G_prev is min(7, 5) = 5: the updated G is not that minimum. -/
theorem conesta_gap_not_min_counterexample :
    (conestaStep conestaTestCfg conestaTestObjective 10 conestaTestState).1.G = 7 ∧
      min |(7 : ℚ)| ((1/2 : ℚ) * 10) = 5 ∧ (7 : ℚ) ≠ 5 := by
  refine ⟨?_, ?_, by norm_num⟩
  · norm_num [conestaStep, conestaBreak, conestaG1, conestaStopFlag, conestaBetaTilde,
      conestaBeta1, conestaMuMin1, conestaTmin1, conestaTnew,
      conestaTestCfg, conestaTestObjective, conestaTestState,
      dynamicGapUpdate, FISTA_call, fistaStep, fistaLoop, normLtQ, normSq,
      vadd, vsub, smul, minQ, maxQ, absQ, TOLERANCE]
  · rw [abs_of_nonneg (by norm_num : (0:ℚ) ≤ 7)]
    norm_num [min_def]

/-- Claim C3 (amended): in a non-stopping outer iteration, the mu installed
on the objective equals `min(previous mu, mu_opt(G))` — clamped above by
the previous mu but NOT below by mu_min; the recorded mu equals the
installed mu, and the mu_min field itself is lowered to
`min(min(mu_min, previous mu), installed mu)`. -/
theorem conesta_mu_update (cfg : ConestaCfg) (F : ConestaObjective)
    (max_eps : ℚ) (s : ConestaState)
    (hns : (conestaStep cfg F max_eps s).2.1 = false) :
    (conestaStep cfg F max_eps s).2.2
        = min s.mu (F.mu_opt (conestaStep cfg F max_eps s).1.G)
      ∧ (conestaStep cfg F max_eps s).2.2 ≤ s.mu
      ∧ (conestaStep cfg F max_eps s).1.mu = (conestaStep cfg F max_eps s).2.2
      ∧ (conestaStep cfg F max_eps s).1.mu_min
          = min (min s.mu_min s.mu) (conestaStep cfg F max_eps s).2.2 := by
  revert hns
  unfold conestaStep
  split
  · intro hns
    exact absurd hns (by simp)
  · intro _
    refine ⟨by rw [minQ_eq_min], ?_, ?_, ?_⟩
    · show minQ s.mu _ ≤ s.mu
      rw [minQ_eq_min]
      exact min_le_left _ _
    · show maxQ (minQ (conestaMuMin1 s) _) _ = _
      unfold maxQ
      rw [if_pos]
      rw [minQ_eq_min]
      exact min_le_right _ _
    · show minQ (conestaMuMin1 s) _ = _
      unfold conestaMuMin1
      rw [minQ_eq_min, minQ_eq_min]

/-- Witness for the amended C3 on a concrete non-stopping outer iteration. -/
theorem conesta_mu_update_witness :
    (conestaStep conestaTestCfg conestaTestObjective 10 conestaTestState).2.1 = false ∧
      (conestaStep conestaTestCfg conestaTestObjective 10 conestaTestState).2.2
        = min conestaTestState.mu
            (conestaTestObjective.mu_opt
              (conestaStep conestaTestCfg conestaTestObjective 10 conestaTestState).1.G) :=
  ⟨by norm_num [conestaStep, conestaBreak, conestaG1, conestaStopFlag, conestaBetaTilde,
      conestaBeta1, conestaMuMin1, conestaTmin1, conestaTnew,
      conestaTestCfg, conestaTestObjective, conestaTestState,
      dynamicGapUpdate, FISTA_call, fistaStep, fistaLoop, normLtQ, normSq,
      vadd, vsub, smul, minQ, maxQ, absQ, TOLERANCE],
   (conesta_mu_update conestaTestCfg conestaTestObjective 10 conestaTestState
      (by norm_num [conestaStep, conestaBreak, conestaG1, conestaStopFlag, conestaBetaTilde,
        conestaBeta1, conestaMuMin1, conestaTmin1, conestaTnew,
        conestaTestCfg, conestaTestObjective, conestaTestState,
        dynamicGapUpdate, FISTA_call, fistaStep, fistaLoop, normLtQ, normSq,
        vadd, vsub, smul, minQ, maxQ, absQ, TOLERANCE])).1⟩

/-- Counterexample to C3 as stated: on a concrete non-stopping outer
iteration with previous mu 4, mu_min 1 and mu_opt(G) = 1/2, the code
installs mu = 1/2 on the objective, strictly below mu_min = 1, whereas
mu_opt(G) clamped to [mu_min, previous mu] would give 1. -/
theorem conesta_mu_below_mu_min_counterexample :
    (conestaStep conestaTestCfg conestaTestObjective 10 conestaTestState).2.2 = 1/2 ∧
      conestaTestState.mu_min = 1 ∧ conestaTestCfg.mu_min = 1 ∧
      max conestaTestState.mu_min
          (min conestaTestState.mu (conestaTestObjective.mu_opt 7)) = 1 ∧
      ((1 : ℚ)/2) ≠ 1 := by
  refine ⟨?_, rfl, rfl, ?_, by norm_num⟩
  · norm_num [conestaStep, conestaBreak, conestaG1, conestaStopFlag, conestaBetaTilde,
      conestaBeta1, conestaMuMin1, conestaTmin1, conestaTnew,
      conestaTestCfg, conestaTestObjective, conestaTestState,
      dynamicGapUpdate, FISTA_call, fistaStep, fistaLoop, normLtQ, normSq,
      vadd, vsub, smul, minQ, maxQ, absQ, TOLERANCE]
  · norm_num [conestaTestState, conestaTestObjective, min_def, max_def]

/-! ### Claim C7: algorithm objects are not stateless -/

/-- Claim C7 fails on the code (and the code contradicts the module
docstring "Algorithms may not store states"): a FISTA call with an
unconfigured step writes `self.step = 1/L()` (the field changes from None
to 1/2 here), and a CONESTA outer iteration lowers `self.mu_min` (from 1
to 1/2 here), so per-run state survives the run and a rerun of the same
instance starts from different configuration than a fresh instance. -/
theorem algorithms_mutate_internal_state :
    (FISTA_call ⟨none, 1/2, 10, 1⟩ ⟨2, fun v => v, fun x _ => x⟩ [1]).2.step
        = some (1/2) ∧
      (FistaCfg.mk none (1/2) 10 1).step = none ∧
      (conestaStep conestaTestCfg conestaTestObjective 10 conestaTestState).1.mu_min
        = 1/2 ∧
      conestaTestState.mu_min = 1 := by
  refine ⟨by norm_num [FISTA_call, fistaStep], rfl, ?_, rfl⟩
  norm_num [conestaStep, conestaBreak, conestaG1, conestaStopFlag, conestaBetaTilde,
    conestaBeta1, conestaMuMin1, conestaTmin1, conestaTnew,
    conestaTestCfg, conestaTestObjective, conestaTestState,
    dynamicGapUpdate, FISTA_call, fistaStep, fistaLoop, normLtQ, normSq,
    vadd, vsub, smul, minQ, maxQ, absQ, TOLERANCE]

/-! ### Claim C6: the Excessive Gap Method -/

/-- The EGM loop, entered at counter k in the state reached after k bodies,
returns the iterate of the first stopping body K provided the fuel reaches
it. -/
theorem egmLoop_reaches (F : EgmObjective) (eps : ℚ) (maxIter : ℕ) :
    ∀ fuel k K, k ≤ K → K < k + fuel → egmStop F eps maxIter K →
      (∀ j, k ≤ j → j < K → ¬ egmStop F eps maxIter j) →
      egmLoop F eps maxIter fuel k (egmSeq F k) = (egmSeq F (K + 1)).beta := by
  intro fuel
  induction fuel with
  | zero => intro k K h1 h2; omega
  | succ n ih =>
    intro k K h1 h2 hK hN
    rw [egmLoop]
    show (if (egmSeq F (k + 1)).mu * F.M < eps ∨ maxIter ≤ k then
        (egmBody F k (egmSeq F k)).beta
      else egmLoop F eps maxIter n (k + 1) (egmBody F k (egmSeq F k))) = _
    rcases eq_or_lt_of_le h1 with heq | hlt
    · subst heq
      have hK' : (egmSeq F (k + 1)).mu * F.M < eps ∨ maxIter ≤ k := hK
      rw [if_pos hK']
      rfl
    · have hnot : ¬ ((egmSeq F (k + 1)).mu * F.M < eps ∨ maxIter ≤ k) :=
        hN k le_rfl hlt
      rw [if_neg hnot]
      exact ih (k + 1) K (by omega) (by omega) hK
        (fun j hj1 hj2 => hN j (by omega) hj2)

/-- Claim C6: the Excessive Gap Method starts with every dual block zero
and mu_0 = 2 L, every body k uses tau = 2/(k+3) so that
mu_{k+1} = (1 - 2/(k+3)) mu_k, and the run returns the iterate of the
first k whose bound ulim = mu_{k+1} * M(h) falls below eps or whose
counter reaches max_iter. -/
theorem EGM_follows_spec (F : EgmObjective) (cfg : EgmCfg) (K : ℕ)
    (hK : egmStop F cfg.eps cfg.max_iter K)
    (hN : ∀ j, j < K → ¬ egmStop F cfg.eps cfg.max_iter j) :
    EGM_call cfg F = (egmSeq F (K + 1)).beta
      ∧ (egmInit F).mu = 2 * F.L
      ∧ (egmInit F).u = F.dualDims.map (fun d => List.replicate d (0 : ℚ))
      ∧ ∀ k, (egmSeq F (k + 1)).mu = (1 - 2 / ((k : ℚ) + 3)) * (egmSeq F k).mu := by
  have hKle : K ≤ cfg.max_iter := by
    by_contra h
    exact hN cfg.max_iter (by omega) (Or.inr le_rfl)
  refine ⟨?_, rfl, rfl, fun k => rfl⟩
  exact egmLoop_reaches F cfg.eps cfg.max_iter (cfg.max_iter + 1) 0 K
    (Nat.zero_le K) (by omega) hK (fun j _ hj => hN j hj)

/-- Witness for C6: the zero objective with L = 1 and M = 1 stops at the
very first body (mu_1 = 2/3 < eps = 1) and returns its iterate. -/
theorem EGM_follows_spec_witness :
    egmStop egmTestObjective 1 5 0 ∧
      EGM_call ⟨1, 5, 1⟩ egmTestObjective = (egmSeq egmTestObjective 1).beta :=
  ⟨by norm_num [egmStop, egmSeq, egmBody, egmInit, egmTestObjective, vadd, smul],
   (EGM_follows_spec egmTestObjective ⟨1, 5, 1⟩ 0
      (by norm_num [egmStop, egmSeq, egmBody, egmInit, egmTestObjective, vadd, smul])
      (fun j hj => absurd hj (Nat.not_lt_zero j))).1⟩

/-! ### Claim C5: the Bisection solver -/

/-- The initial bracket is always correctly oriented: min(x) <= max(x),
and 0 <= 1 in the default bracket. -/
theorem bisectionLow_le_high (x : Option (ℚ × ℚ)) :
    bisectionLow x ≤ bisectionHigh x := by
  cases x with
  | none => norm_num [bisectionLow, bisectionHigh]
  | some p =>
    show minQ p.1 p.2 ≤ maxQ p.1 p.2
    rw [minQ_eq_min, maxQ_eq_max]
    exact le_trans (min_le_left _ _) (le_max_left _ _)

/-- When the expansion phase reports a sign change, the returned f-values
are the values of f at the returned bracket ends, those values have
different signs, and the bracket stays ordered. -/
theorem bisectionExpand_found (f : ℚ → ℚ) :
    ∀ fuel i low high flp fhp, low ≤ high →
      (bisectionExpand f fuel i low high flp fhp).2.2.2.2 = true →
      (bisectionExpand f fuel i low high flp fhp).2.2.1
          = f (bisectionExpand f fuel i low high flp fhp).1
        ∧ (bisectionExpand f fuel i low high flp fhp).2.2.2.1
          = f (bisectionExpand f fuel i low high flp fhp).2.1
        ∧ signQ (f (bisectionExpand f fuel i low high flp fhp).1)
          ≠ signQ (f (bisectionExpand f fuel i low high flp fhp).2.1)
        ∧ (bisectionExpand f fuel i low high flp fhp).1
          ≤ (bisectionExpand f fuel i low high flp fhp).2.1 := by
  intro fuel
  induction fuel with
  | zero => intro i low high flp fhp _ hfound; exact absurd hfound (by simp [bisectionExpand])
  | succ n ih =>
    intro i low high flp fhp hlh hfound
    by_cases hs : signQ (f low) = signQ (f high)
    · have hred : bisectionExpand f (n + 1) i low high flp fhp
          = bisectionExpand f n (i + 1) (low - absQ low * 2 ^ i)
              (high + absQ high * 2 ^ i) (f low) (f high) := by
        rw [bisectionExpand, if_pos hs]
      rw [hred] at hfound ⊢
      have habs1 : 0 ≤ absQ low * 2 ^ i :=
        mul_nonneg (by rw [absQ_eq_abs]; exact abs_nonneg low) (by positivity)
      have habs2 : 0 ≤ absQ high * 2 ^ i :=
        mul_nonneg (by rw [absQ_eq_abs]; exact abs_nonneg high) (by positivity)
      exact ih (i + 1) _ _ _ _ (by linarith) hfound
    · have hred : bisectionExpand f (n + 1) i low high flp fhp
          = (low, high, f low, f high, true) := by
        rw [bisectionExpand, if_neg hs]
      rw [hred]
      exact ⟨rfl, rfl, hs, hlh⟩

/-- The bisection phase keeps the bracket ordered and nested, preserves
the sign change across the bracket, and exits with either a bracket of
width at most eps or one halved exactly `fuel` times. -/
theorem bisectionLoop_invariant (f : ℚ → ℚ) (eps : ℚ) :
    ∀ fuel low high, low ≤ high →
      signQ (f low) ≠ signQ (f high) →
      low ≤ (bisectionLoop f eps fuel low high (f low) (f high)).1
        ∧ (bisectionLoop f eps fuel low high (f low) (f high)).1
          ≤ (bisectionLoop f eps fuel low high (f low) (f high)).2
        ∧ (bisectionLoop f eps fuel low high (f low) (f high)).2 ≤ high
        ∧ signQ (f (bisectionLoop f eps fuel low high (f low) (f high)).1)
          ≠ signQ (f (bisectionLoop f eps fuel low high (f low) (f high)).2)
        ∧ ((bisectionLoop f eps fuel low high (f low) (f high)).2
              - (bisectionLoop f eps fuel low high (f low) (f high)).1 ≤ eps
            ∨ (bisectionLoop f eps fuel low high (f low) (f high)).2
              - (bisectionLoop f eps fuel low high (f low) (f high)).1
              = (high - low) / 2 ^ fuel) := by
  intro fuel
  induction fuel with
  | zero =>
    intro low high hlh hs
    refine ⟨le_rfl, hlh, le_rfl, hs, Or.inr ?_⟩
    show high - low = (high - low) / 2 ^ 0
    norm_num
  | succ n ih =>
    intro low high hlh hs
    have hmid1 : low ≤ (low + high) / 2 := by linarith
    have hmid2 : (low + high) / 2 ≤ high := by linarith
    by_cases hsm : signQ (f ((low + high) / 2)) = signQ (f low)
    · have hred : bisectionLoop f eps (n + 1) low high (f low) (f high)
          = if absQ (high - (low + high) / 2) ≤ eps then ((low + high) / 2, high)
            else bisectionLoop f eps n ((low + high) / 2) high
              (f ((low + high) / 2)) (f high) := by
        rw [bisectionLoop]
        simp only [if_pos hsm]
      have hsign : signQ (f ((low + high) / 2)) ≠ signQ (f high) := by
        rw [hsm]; exact hs
      rw [hred]
      by_cases hw : absQ (high - (low + high) / 2) ≤ eps
      · rw [if_pos hw]
        rw [absQ_eq_abs, abs_of_nonneg (by linarith)] at hw
        exact ⟨hmid1, hmid2, le_rfl, hsign, Or.inl hw⟩
      · rw [if_neg hw]
        obtain ⟨h1, h2, h3, h4, h5⟩ := ih ((low + high) / 2) high hmid2 hsign
        refine ⟨le_trans hmid1 h1, h2, h3, h4, ?_⟩
        rcases h5 with h5 | h5
        · exact Or.inl h5
        · refine Or.inr ?_
          rw [h5]
          rw [show high - (low + high) / 2 = (high - low) / 2 by ring]
          rw [div_div]
          congr 1
          ring
    · have hred : bisectionLoop f eps (n + 1) low high (f low) (f high)
          = if absQ ((low + high) / 2 - low) ≤ eps then (low, (low + high) / 2)
            else bisectionLoop f eps n low ((low + high) / 2)
              (f low) (f ((low + high) / 2)) := by
        rw [bisectionLoop]
        simp only [if_neg hsm]
      have hsign : signQ (f low) ≠ signQ (f ((low + high) / 2)) :=
        fun h => hsm h.symm
      rw [hred]
      by_cases hw : absQ ((low + high) / 2 - low) ≤ eps
      · rw [if_pos hw]
        rw [absQ_eq_abs, abs_of_nonneg (by linarith)] at hw
        exact ⟨le_rfl, hmid1, hmid2, hsign, Or.inl hw⟩
      · rw [if_neg hw]
        obtain ⟨h1, h2, h3, h4, h5⟩ := ih low ((low + high) / 2) hmid1 hsign
        refine ⟨h1, h2, le_trans h3 hmid2, h4, ?_⟩
        rcases h5 with h5 | h5
        · exact Or.inl h5
        · refine Or.inr ?_
          rw [h5]
          rw [show (low + high) / 2 - low = (high - low) / 2 by ring]
          rw [div_div]
          congr 1
          ring

/-- Claim C5 (amended): regardless of the orientation of the initial
bracket (which is normalised by min/max), the expansion phase is capped at
max_iter doublings, and WHEN it detects a sign change the bisection phase
keeps a bracket with a sign change across it and stops on the bracket
width — not on |f(mid)|: the returned value is the midpoint of a final
bracket [lo, hi] with sign(f lo) different from sign(f hi) whose width is
at most eps or halved exactly max_iter times; |f(returned)| <= eps itself
is NOT guaranteed. -/
theorem Bisection_call_bracket (cfg : BisectionCfg) (f : ℚ → ℚ)
    (x : Option (ℚ × ℚ))
    (hfound : (bisectionExpand f cfg.max_iter 0
        (bisectionLow x) (bisectionHigh x) 0 0).2.2.2.2 = true) :
    ∃ lo hi, Bisection_call cfg f x = (lo + hi) / 2 ∧ lo ≤ hi ∧
      signQ (f lo) ≠ signQ (f hi) ∧
      (hi - lo ≤ cfg.eps ∨
        hi - lo = ((bisectionExpand f cfg.max_iter 0
              (bisectionLow x) (bisectionHigh x) 0 0).2.1
            - (bisectionExpand f cfg.max_iter 0
              (bisectionLow x) (bisectionHigh x) 0 0).1) / 2 ^ cfg.max_iter) := by
  obtain ⟨hfl, hfh, hsign, hord⟩ := bisectionExpand_found f cfg.max_iter 0
    (bisectionLow x) (bisectionHigh x) 0 0 (bisectionLow_le_high x) hfound
  set e := bisectionExpand f cfg.max_iter 0 (bisectionLow x) (bisectionHigh x) 0 0
    with he
  obtain ⟨h1, h2, h3, h4, h5⟩ := bisectionLoop_invariant f cfg.eps cfg.max_iter
    e.1 e.2.1 hord hsign
  refine ⟨(bisectionLoop f cfg.eps cfg.max_iter e.1 e.2.1 (f e.1) (f e.2.1)).1,
    (bisectionLoop f cfg.eps cfg.max_iter e.1 e.2.1 (f e.1) (f e.2.1)).2, ?_, h2, h4, h5⟩
  show (let b := bisectionLoop f cfg.eps cfg.max_iter e.1 e.2.1 e.2.2.1 e.2.2.2.1
    (b.1 + b.2) / 2) = _
  rw [hfl, hfh]

/-- Witness for the amended C5: the identity map on the reversed bracket
(1, -1); the expansion phase immediately detects the sign change and the
theorem yields the final bracket facts. -/
theorem Bisection_call_bracket_witness :
    (bisectionExpand (fun t => t) 2 0 (bisectionLow (some (1, -1)))
        (bisectionHigh (some (1, -1))) 0 0).2.2.2.2 = true ∧
      (∃ lo hi, Bisection_call ⟨1, 2, 1⟩ (fun t => t) (some (1, -1)) = (lo + hi) / 2 ∧
        lo ≤ hi ∧ signQ lo ≠ signQ hi ∧
        (hi - lo ≤ (1 : ℚ) ∨
          hi - lo = ((bisectionExpand (fun t => t) 2 0 (bisectionLow (some (1, -1)))
                (bisectionHigh (some (1, -1))) 0 0).2.1
              - (bisectionExpand (fun t => t) 2 0 (bisectionLow (some (1, -1)))
                (bisectionHigh (some (1, -1))) 0 0).1) / 2 ^ 2)) :=
  ⟨by norm_num [bisectionExpand, bisectionLow, bisectionHigh, minQ, maxQ, signQ],
   Bisection_call_bracket ⟨1, 2, 1⟩ (fun t => t) (some (1, -1))
     (by norm_num [bisectionExpand, bisectionLow, bisectionHigh, minQ, maxQ, signQ])⟩

/-- Counterexample to C5 as stated: for the monotone sign-changing function
t + 10 with the default bracket, eps = 1/2 and max_iter = 3, no sign
change is ever detected (the lower end 0 never moves because
`low -= |low| * 2^i` is zero), the run returns 225/8, and
|f(225/8)| = 305/8 is far above eps — and on the way the bisection phase
never stopped at any mid with |f(mid)| <= eps. -/
theorem bisection_far_from_root_counterexample :
    StrictMono bisectionTestF ∧ bisectionTestF (-20) < 0 ∧ 0 < bisectionTestF 20 ∧
      (bisectionExpand bisectionTestF 3 0 (bisectionLow none)
        (bisectionHigh none) 0 0).2.2.2.2 = false ∧
      Bisection_call ⟨1/2, 3, 1⟩ bisectionTestF none = 225/8 ∧
      ¬ (absQ (bisectionTestF (225/8)) ≤ 1/2) := by
  refine ⟨fun a b h => add_lt_add_right h 10, by norm_num [bisectionTestF],
    by norm_num [bisectionTestF], ?_, ?_, by norm_num [bisectionTestF, absQ]⟩
  · norm_num [bisectionExpand, bisectionTestF, bisectionLow, bisectionHigh,
      signQ, absQ]
  · norm_num [Bisection_call, bisectionExpand, bisectionLoop, bisectionTestF,
      bisectionLow, bisectionHigh, signQ, absQ, minQ, maxQ]

/-! ### Claim C8: the multiblock L1 retry loop -/

/-- Zero-buffer absorption: once the shared buffer holds the zero vector,
every later pass computes a zero sign factor, tests the zero vector, and
re-thresholds to a zero buffer (for a nonnegative threshold), so the loop
never exits for any amount of fuel. -/
theorem mbL1loop_zero_buffer : ∀ fuel l, 0 ≤ l → mbL1loop [0] false fuel l = none := by
  intro fuel
  induction fuel with
  | zero => intro l _; rfl
  | succ n ih =>
    intro l hl
    have hres : mbPassResult [0] l = [0] := by
      simp [mbPassResult, mbPassBuffer, signQ]
    have hbuf : mbPassBuffer [0] l = [0] := by
      have habs : absQ (0 : ℚ) = 0 := by norm_num [absQ]
      have hval : (if absQ (0 : ℚ) - l < 0 then (0 : ℚ) else absQ (0 : ℚ) - l) = 0 := by
        rw [habs, zero_sub]
        rcases lt_or_eq_of_le hl with h | h
        · rw [if_pos (by linarith : -l < 0)]
        · rw [← h]
          norm_num
      show [if absQ (0 : ℚ) - l < 0 then (0 : ℚ) else absQ (0 : ℚ) - l] = [0]
      rw [hval]
    have hcond : ¬ (TOLERANCE ^ 2 < normSq (mbPassResult [0] l) ∨ (false : Bool) = true) := by
      rw [hres]
      norm_num [normSq, TOLERANCE]
    rw [mbL1loop, if_neg hcond, hbuf, ih (l * (95 / 100)) (mul_nonneg hl (by norm_num))]
    rfl

/-- Claim C8: the code at the failing input x = (1), threshold 2, empty
results disallowed.  The first pass purges the vector and — because
`x = xorig` aliases rather than copies, so the pass mutated the shared
buffer in place — leaves the buffer holding the zero vector; every retry
then thresholds an already-zero buffer and the loop never exits, however
much fuel it is given, and the warning is never reached.  Yet the claimed
(and intended) relaxation would have worked: re-applying the soft
threshold to the PRISTINE input after fourteen 5-percent shrinkages
(threshold 2 * 0.95^14 < 1) yields a vector of norm above TOLERANCE. -/
theorem mbL1prox_aliasing_never_recovers :
    ¬ mbL1terminates [1] 2 false ∧
      TOLERANCE ^ 2 < normSq [1] ∧
      TOLERANCE ^ 2 < normSq (mbSoftThreshold [1] (2 * (95 / 100) ^ 14)) := by
  refine ⟨?_, by norm_num [TOLERANCE, normSq], ?_⟩
  · rintro ⟨fuel, h⟩
    cases fuel with
    | zero => exact absurd h (by simp [mbL1loop])
    | succ n =>
      have hres : mbPassResult [1] 2 = [0] := by
        norm_num [mbPassResult, mbPassBuffer, signQ, absQ]
      have hbuf : mbPassBuffer [1] 2 = [0] := by
        norm_num [mbPassBuffer, absQ]
      have hcond : ¬ (TOLERANCE ^ 2 < normSq (mbPassResult [1] 2) ∨ (false : Bool) = true) := by
        rw [hres]
        norm_num [normSq, TOLERANCE]
      rw [mbL1loop, if_neg hcond, hbuf,
        mbL1loop_zero_buffer n (2 * (95 / 100)) (by norm_num)] at h
      exact absurd h (by simp)
  · norm_num [mbSoftThreshold, signQ, absQ, normSq, TOLERANCE]

/-! ### Claim C9: the L0-by-count projection -/

/-- getD after setting the same slot. -/
theorem getD_set_self_q (l : List ℚ) (i : ℕ) (x : ℚ) (h : i < l.length) :
    (l.set i x).getD i 0 = x := by
  rw [List.getD_eq_getElem?_getD, List.getElem?_set_self h]
  rfl

/-- getD after setting a different slot. -/
theorem getD_set_ne_q (l : List ℚ) (i j : ℕ) (x : ℚ) (h : i ≠ j) :
    (l.set i x).getD j 0 = l.getD j 0 := by
  rw [List.getD_eq_getElem?_getD, List.getElem?_set_ne h, ← List.getD_eq_getElem?_getD]

/-- Every entry is at most the list maximum. -/
theorem le_listMaxQ : ∀ (l : List ℚ) (i : ℕ), i < l.length → l.getD i 0 ≤ listMaxQ l := by
  intro l
  induction l with
  | nil => intro i h; simp at h
  | cons v t ih =>
    intro i hi
    cases t with
    | nil =>
      have h0 : i = 0 := by simpa using hi
      subst h0
      simp [listMaxQ]
    | cons w t' =>
      rw [show listMaxQ (v :: w :: t') = maxQ v (listMaxQ (w :: t')) from rfl, maxQ_eq_max]
      cases i with
      | zero => simp [le_max_left]
      | succ n =>
        rw [List.getD_cons_succ]
        exact le_trans (ih n (by simpa using hi)) (le_max_right _ _)

/-- The first argmax is in range for nonempty lists. -/
theorem argmaxIdx_lt_length : ∀ (l : List ℚ), l ≠ [] → argmaxIdx l < l.length := by
  intro l
  induction l with
  | nil => intro h; exact absurd rfl h
  | cons v t ih =>
    intro _
    cases t with
    | nil => simp [argmaxIdx]
    | cons w t' =>
      rw [show argmaxIdx (v :: w :: t')
          = if listMaxQ (w :: t') ≤ v then 0 else argmaxIdx (w :: t') + 1 from rfl]
      split
      · simp
      · have := ih (by simp)
        simpa using Nat.succ_lt_succ this

/-- The entry at the argmax is the maximum. -/
theorem argmaxIdx_getD : ∀ (l : List ℚ), l ≠ [] → l.getD (argmaxIdx l) 0 = listMaxQ l := by
  intro l
  induction l with
  | nil => intro h; exact absurd rfl h
  | cons v t ih =>
    intro _
    cases t with
    | nil => simp [argmaxIdx, listMaxQ]
    | cons w t' =>
      rw [show argmaxIdx (v :: w :: t')
          = if listMaxQ (w :: t') ≤ v then 0 else argmaxIdx (w :: t') + 1 from rfl,
        show listMaxQ (v :: w :: t') = maxQ v (listMaxQ (w :: t')) from rfl, maxQ_eq_max]
      split
      · rename_i hle
        rw [List.getD_cons_zero]
        exact (max_eq_left hle).symm
      · rename_i hlt
        rw [List.getD_cons_succ, ih (by simp)]
        exact (max_eq_right (le_of_not_le hlt)).symm

/-- A nonempty list of indices contains its last element. -/
theorem getLastD_mem_nat (J : List ℕ) (h : J ≠ []) : J.getLast?.getD 0 ∈ J := by
  rw [List.getLast?_eq_getLast J h]
  simpa using List.getLast_mem h

/-- Fewer than n distinct indices below n leave some index unused. -/
theorem exists_unmasked (S : List ℕ) (n : ℕ) (hnd : S.Nodup)
    (hin : ∀ i ∈ S, i < n) (hcard : S.length < n) :
    ∃ i, i < n ∧ i ∉ S := by
  by_contra h
  push_neg at h
  have hsub : Finset.range n ⊆ S.toFinset := by
    intro i hi
    rw [List.mem_toFinset]
    exact h i (Finset.mem_range.mp hi)
  have hle := Finset.card_le_card hsub
  rw [Finset.card_range, List.toFinset_card_of_nodup hnd] at hle
  omega

/-- One argmax-and-mask step: with distinct nonnegative entries, the
argmax of the masked list is a fresh in-range index carrying the largest
remaining value, strictly above every other unmasked value and strictly
below every previously masked one, and masking it preserves the
invariant. -/
theorem maskStep (cp cp' : List ℚ) (S : List ℕ)
    (hnn : ∀ i, i < cp.length → 0 ≤ cp.getD i 0)
    (hdist : ∀ i j, i < cp.length → j < cp.length → i ≠ j →
      cp.getD i 0 ≠ cp.getD j 0)
    (hinv : maskInv cp cp' S) (hcard : S.length < cp.length) :
    argmaxIdx cp' < cp.length ∧ argmaxIdx cp' ∉ S ∧
      (∀ j, j < cp.length → j ∉ S → j ≠ argmaxIdx cp' →
        cp.getD j 0 < cp.getD (argmaxIdx cp') 0) ∧
      (∀ i ∈ S, cp.getD (argmaxIdx cp') 0 < cp.getD i 0) ∧
      maskInv cp (cp'.set (argmaxIdx cp') (-1)) (argmaxIdx cp' :: S) := by
  obtain ⟨hlen, hnd, hmask, hkeep, hdom⟩ := hinv
  have hne : cp' ≠ [] := by
    intro h
    rw [h] at hlen
    simp at hlen
    omega
  have haltq : argmaxIdx cp' < cp'.length := argmaxIdx_lt_length cp' hne
  have halt : argmaxIdx cp' < cp.length := by omega
  have hmax := argmaxIdx_getD cp' hne
  obtain ⟨i0, hi0n, hi0S⟩ := exists_unmasked S cp.length hnd
    (fun i hi => (hmask i hi).1) hcard
  have hmaxge : 0 ≤ listMaxQ cp' := by
    have h1 := le_listMaxQ cp' i0 (by omega)
    rw [hkeep i0 hi0n hi0S] at h1
    exact le_trans (hnn i0 hi0n) h1
  have haS : argmaxIdx cp' ∉ S := by
    intro hmem
    have h1 := (hmask (argmaxIdx cp') hmem).2
    rw [h1] at hmax
    rw [← hmax] at hmaxge
    norm_num at hmaxge
  have hval : cp.getD (argmaxIdx cp') 0 = listMaxQ cp' := by
    rw [← hkeep (argmaxIdx cp') halt haS]
    exact hmax
  have hdomU : ∀ j, j < cp.length → j ∉ S → j ≠ argmaxIdx cp' →
      cp.getD j 0 < cp.getD (argmaxIdx cp') 0 := by
    intro j hj hjS hja
    have h1 := le_listMaxQ cp' j (by omega)
    rw [hkeep j hj hjS] at h1
    have h2 := hdist j (argmaxIdx cp') hj halt hja
    rw [hval]
    rw [hval] at h2
    exact lt_of_le_of_ne h1 h2
  have hdomM : ∀ i ∈ S, cp.getD (argmaxIdx cp') 0 < cp.getD i 0 :=
    fun i hi => hdom i hi (argmaxIdx cp') halt haS
  refine ⟨halt, haS, hdomU, hdomM,
    by rw [List.length_set]; exact hlen,
    List.nodup_cons.mpr ⟨haS, hnd⟩, ?_, ?_, ?_⟩
  · intro i hi
    rcases List.mem_cons.mp hi with rfl | hiS
    · exact ⟨halt, getD_set_self_q cp' _ (-1) haltq⟩
    · refine ⟨(hmask i hiS).1, ?_⟩
      rw [getD_set_ne_q cp' _ i (-1) (fun h => haS (by rw [h]; exact hiS))]
      exact (hmask i hiS).2
  · intro i hi hiaS
    have hia : i ≠ argmaxIdx cp' := fun h => hiaS (h ▸ List.mem_cons_self _ S)
    have hiS : i ∉ S := fun h => hiaS (List.mem_cons_of_mem _ h)
    rw [getD_set_ne_q cp' _ i (-1) (Ne.symm hia)]
    exact hkeep i hi hiS
  · intro i hi j hj hjaS
    have hja : j ≠ argmaxIdx cp' := fun h => hjaS (h ▸ List.mem_cons_self _ S)
    have hjS : j ∉ S := fun h => hjaS (List.mem_cons_of_mem _ h)
    rcases List.mem_cons.mp hi with rfl | hiS
    · exact hdomU j hj hjS hja
    · exact hdom i hiS j hj hjS

/-- The selection returns t distinct fresh in-range indices; every index
outside the selection (and outside the mask) carries a value strictly
below the value at the LAST selected index, and every selected index
carries at least that value. -/
theorem selectTop_spec (cp : List ℚ)
    (hnn : ∀ i, i < cp.length → 0 ≤ cp.getD i 0)
    (hdist : ∀ i j, i < cp.length → j < cp.length → i ≠ j →
      cp.getD i 0 ≠ cp.getD j 0) :
    ∀ t cp' S, maskInv cp cp' S → 1 ≤ t → S.length + t ≤ cp.length →
      (∀ a ∈ selectTopIdx cp' t, a < cp.length ∧ a ∉ S) ∧
        (selectTopIdx cp' t).Nodup ∧ (selectTopIdx cp' t).length = t ∧
        (∀ i, i < cp.length → i ∉ S → i ∉ selectTopIdx cp' t →
          cp.getD i 0 < cp.getD ((selectTopIdx cp' t).getLast?.getD 0) 0) ∧
        (∀ a ∈ selectTopIdx cp' t,
          cp.getD ((selectTopIdx cp' t).getLast?.getD 0) 0 ≤ cp.getD a 0) := by
  intro t
  induction t with
  | zero => intro cp' S _ h1 _; omega
  | succ n ih =>
    intro cp' S hinv _ hlen
    obtain ⟨halt, haS, hdomU, hdomM, hinv'⟩ :=
      maskStep cp cp' S hnn hdist hinv (by omega)
    cases n with
    | zero =>
      rw [show selectTopIdx cp' 1 = [argmaxIdx cp'] from rfl]
      refine ⟨?_, by simp, rfl, ?_, ?_⟩
      · intro a ha
        rw [List.mem_singleton] at ha
        subst ha
        exact ⟨halt, haS⟩
      · intro i hi hiS hiJ
        have hlast : (([argmaxIdx cp'] : List ℕ).getLast?).getD 0 = argmaxIdx cp' := rfl
        rw [hlast]
        exact hdomU i hi hiS (by simpa using hiJ)
      · intro a ha
        rw [List.mem_singleton] at ha
        subst ha
        exact le_of_eq rfl
    | succ m =>
      have hIH := ih (cp'.set (argmaxIdx cp') (-1)) (argmaxIdx cp' :: S) hinv'
        (by omega) (by simp only [List.length_cons]; omega)
      obtain ⟨ihmem, ihnd, ihlen, ihlt, ihge⟩ := hIH
      have hsel : selectTopIdx cp' (m + 2)
          = argmaxIdx cp' :: selectTopIdx (cp'.set (argmaxIdx cp') (-1)) (m + 1) := rfl
      have hJne : selectTopIdx (cp'.set (argmaxIdx cp') (-1)) (m + 1) ≠ [] := by
        intro h
        rw [h] at ihlen
        simp at ihlen
      have hlast : (argmaxIdx cp'
            :: selectTopIdx (cp'.set (argmaxIdx cp') (-1)) (m + 1)).getLast?.getD 0
          = (selectTopIdx (cp'.set (argmaxIdx cp') (-1)) (m + 1)).getLast?.getD 0 := by
        cases hJ : selectTopIdx (cp'.set (argmaxIdx cp') (-1)) (m + 1) with
        | nil => exact absurd hJ hJne
        | cons b l => rw [List.getLast?_cons_cons]
      have hlastmem := getLastD_mem_nat _ hJne
      obtain ⟨hlastlt, hlastnotin⟩ := ihmem _ hlastmem
      have hlastneA : (selectTopIdx (cp'.set (argmaxIdx cp') (-1)) (m + 1)).getLast?.getD 0
          ≠ argmaxIdx cp' :=
        fun h => hlastnotin (by rw [h]; exact List.mem_cons_self _ _)
      have hlastS : (selectTopIdx (cp'.set (argmaxIdx cp') (-1)) (m + 1)).getLast?.getD 0
          ∉ S := fun h => hlastnotin (List.mem_cons_of_mem _ h)
      rw [hsel]
      refine ⟨?_, ?_, ?_, ?_, ?_⟩
      · intro a ha
        rcases List.mem_cons.mp ha with rfl | haJ
        · exact ⟨halt, haS⟩
        · obtain ⟨h1, h2⟩ := ihmem a haJ
          exact ⟨h1, fun h => h2 (List.mem_cons_of_mem _ h)⟩
      · refine List.nodup_cons.mpr ⟨?_, ihnd⟩
        intro hmem
        exact (ihmem _ hmem).2 (List.mem_cons_self _ _)
      · simp [ihlen]
      · intro i hi hiS hiJ
        rw [hlast]
        have hiA : i ≠ argmaxIdx cp' :=
          fun h => hiJ (by rw [h]; exact List.mem_cons_self _ _)
        have hiJ' : i ∉ selectTopIdx (cp'.set (argmaxIdx cp') (-1)) (m + 1) :=
          fun h => hiJ (List.mem_cons_of_mem _ h)
        refine ihlt i hi ?_ hiJ'
        intro h
        rcases List.mem_cons.mp h with h' | h'
        · exact hiA h'
        · exact hiS h'
      · intro a ha
        rw [hlast]
        rcases List.mem_cons.mp ha with rfl | haJ
        · exact le_of_lt (hdomU _ hlastlt hlastS hlastneA)
        · exact ihge a haJ

/-- Counting by predicate equals counting the satisfying indices. -/
theorem countP_eq_length_filter_range (p : ℚ → Bool) (cp : List ℚ) :
    cp.countP p = ((List.range cp.length).filter (fun i => p (cp.getD i 0))).length := by
  induction cp with
  | nil => simp
  | cons a t ih =>
    rw [List.countP_cons, List.length_cons, List.range_succ_eq_map, List.filter_cons]
    have h1 : (List.map Nat.succ (List.range t.length)).filter
        (fun i => p ((a :: t).getD i 0))
        = List.map Nat.succ ((List.range t.length).filter (fun i => p (t.getD i 0))) := by
      rw [List.filter_map]
      congr 1
    simp only [show ((a :: t).getD 0 0) = a from rfl]
    by_cases hp : p a = true
    · rw [if_pos hp, if_pos hp, List.length_cons, h1, List.length_map, ← ih]
    · rw [if_neg hp, if_neg hp, h1, List.length_map, ← ih]
      omega

/-- The indices below n satisfying membership in a duplicate-free list of
indices below n are exactly that list, in count. -/
theorem length_filter_range_mem (J : List ℕ) (n : ℕ) (hnd : J.Nodup)
    (hlt : ∀ a ∈ J, a < n) :
    ((List.range n).filter (fun i => decide (i ∈ J))).length = J.length := by
  have hndf : ((List.range n).filter (fun i => decide (i ∈ J))).Nodup :=
    (List.nodup_range n).filter _
  rw [← List.toFinset_card_of_nodup hndf, ← List.toFinset_card_of_nodup hnd]
  congr 1
  apply Finset.ext
  intro i
  simp only [List.mem_toFinset, List.mem_filter, List.mem_range, decide_eq_true_eq]
  exact ⟨fun h => h.2, fun h => ⟨hlt i h, h⟩⟩

/-- absQ distributes over division. -/
theorem absQ_div (a b : ℚ) : absQ (a / b) = absQ a / absQ b := by
  rw [absQ_eq_abs, absQ_eq_abs, absQ_eq_abs, abs_div]

/-- Claim C9 (amended): with an explicit normaliser whose value is
nonzero, on a vector with all entries nonzero and pairwise-DISTINCT
magnitudes, and a target 1 <= k <= p, L0_by_count.prox succeeds and its
result has exactly min(k, p) nonzero entries — at a set of min(k, p)
index positions that carry the largest magnitudes of the original vector
(every selected position strictly dominates every unselected one in
original magnitude), where the result keeps the normalised value (which
is nonzero), while every other entry is zeroed.  (Without those provisos
the count claim fails: magnitude ties at the threshold all survive the
strict comparison, and the default normaliser=None path raises
AttributeError.) -/
theorem L0_by_count_card (num : ℕ) (x : List ℚ) (nf : List ℚ → ℚ)
    (hnum1 : 1 ≤ num) (hnum2 : num ≤ x.length)
    (hnf : nf x ≠ 0)
    (h0 : ∀ v ∈ x, v ≠ 0)
    (hdist : ∀ i j, i < x.length → j < x.length → i ≠ j →
      absQ (x.getD i 0) ≠ absQ (x.getD j 0)) :
    (L0_by_count_prox num x (some nf)).isOk = true ∧
      countNonzero ((L0_by_count_prox num x (some nf)).toOption.getD [])
        = min num x.length ∧
      ∃ J : List ℕ, J.Nodup ∧ J.length = min num x.length ∧
        (∀ a ∈ J, a < x.length) ∧
        (∀ a ∈ J, ∀ i, i < x.length → i ∉ J →
          absQ (x.getD i 0) < absQ (x.getD a 0)) ∧
        (∀ i, i < x.length → i ∈ J →
          ((L0_by_count_prox num x (some nf)).toOption.getD []).getD i 0
            = x.getD i 0 / nf x ∧ x.getD i 0 / nf x ≠ 0) ∧
        (∀ i, i < x.length → i ∉ J →
          ((L0_by_count_prox num x (some nf)).toOption.getD []).getD i 0 = 0) := by
  have hxlen1 : 1 ≤ x.length := le_trans hnum1 hnum2
  have ht : max (min num x.length) 1 = min num x.length := by omega
  set xn := x.map (fun v => v / nf x) with hxn
  set cp := xn.map (fun v => absQ v) with hcp
  set t := min num x.length with htdef
  have hxnlen : xn.length = x.length := List.length_map x _
  have hcplen : cp.length = x.length := by rw [hcp, List.length_map, hxnlen]
  have hxni : ∀ i, i < x.length → xn.getD i 0 = x.getD i 0 / nf x := by
    intro i hi
    rw [List.getD_eq_getElem?_getD, hxn, List.getElem?_map,
      List.getD_eq_getElem?_getD]
    cases hx : x[i]? with
    | none => exact absurd (List.getElem?_eq_none_iff.mp hx) (by omega)
    | some v => simp
  have hcpi : ∀ i, i < x.length → cp.getD i 0 = absQ (xn.getD i 0) := by
    intro i hi
    rw [List.getD_eq_getElem?_getD, hcp, List.getElem?_map,
      List.getD_eq_getElem?_getD]
    cases hx : xn[i]? with
    | none =>
      refine absurd (List.getElem?_eq_none_iff.mp hx) ?_
      rw [hxnlen]
      omega
    | some v => simp
  have hnn : ∀ i, i < cp.length → 0 ≤ cp.getD i 0 := by
    intro i hi
    rw [hcpi i (by omega), absQ_eq_abs]
    exact abs_nonneg _
  have hdist' : ∀ i j, i < cp.length → j < cp.length → i ≠ j →
      cp.getD i 0 ≠ cp.getD j 0 := by
    intro i j hi hj hij heq
    rw [hcpi i (by omega), hcpi j (by omega), hxni i (by omega), hxni j (by omega),
      absQ_div, absQ_div] at heq
    have hc0 : absQ (nf x) ≠ 0 := by
      rw [absQ_eq_abs]
      exact abs_ne_zero.mpr hnf
    have h2 := (div_eq_div_iff hc0 hc0).mp heq
    have h3 := mul_right_cancel₀ hc0 h2
    exact hdist i j (by omega) (by omega) hij h3
  have hinv0 : maskInv cp cp [] := by
    refine ⟨rfl, List.nodup_nil, ?_, ?_, ?_⟩
    · intro i hi; simp at hi
    · intro i _ _; rfl
    · intro i hi; simp at hi
  have ht1 : 1 ≤ t := by omega
  have ht2 : ([] : List ℕ).length + t ≤ cp.length := by
    simp only [List.length_nil, Nat.zero_add]
    omega
  obtain ⟨hmem, hnd, hlenJ, hlt, hge⟩ :=
    selectTop_spec cp hnn hdist' t cp [] hinv0 ht1 ht2
  set J := selectTopIdx cp t with hJ
  have hJne : J ≠ [] := by
    intro h
    rw [h] at hlenJ
    simp at hlenJ
    omega
  have hjl := getLastD_mem_nat J hJne
  obtain ⟨hjllt, _⟩ := hmem _ hjl
  have hlval : absQ (xn.getD (J.getLast?.getD 0) 0)
      = cp.getD (J.getLast?.getD 0) 0 := (hcpi _ (by omega)).symm
  have hxnne : ∀ v ∈ xn, v ≠ 0 := by
    intro v hv
    obtain ⟨w, hw, rfl⟩ := List.mem_map.mp hv
    exact div_ne_zero (h0 w hw) hnf
  have hpayload : (L0_by_count_prox num x (some nf)).toOption.getD []
      = xn.map (fun v => if absQ v <
          absQ (xn.getD ((selectTopIdx cp (max t 1)).getLast?.getD 0) 0)
          then 0 else v) := rfl
  rw [ht] at hpayload
  rw [← hJ] at hpayload
  rw [hlval] at hpayload
  have hresi : ∀ i, i < x.length →
      ((L0_by_count_prox num x (some nf)).toOption.getD []).getD i 0
        = if cp.getD i 0 < cp.getD (J.getLast?.getD 0) 0 then 0 else xn.getD i 0 := by
    intro i hi
    rw [hpayload, List.getD_eq_getElem?_getD, List.getElem?_map]
    cases hx : xn[i]? with
    | none =>
      refine absurd (List.getElem?_eq_none_iff.mp hx) ?_
      rw [hxnlen]
      omega
    | some v =>
      have hv : xn.getD i 0 = v := by
        rw [List.getD_eq_getElem?_getD, hx]
        rfl
      have hcv : cp.getD i 0 = absQ v := by
        rw [hcpi i hi, hv]
      simp only [Option.map_some', Option.getD_some]
      rw [hcv, hv]
  have hcong : List.countP ((fun a => decide (a ≠ 0)) ∘
      (fun v => if absQ v < cp.getD (J.getLast?.getD 0) 0 then 0 else v)) xn
      = List.countP (fun v => decide (cp.getD (J.getLast?.getD 0) 0 ≤ absQ v)) xn := by
    apply List.countP_congr
    intro v hv
    simp only [Function.comp, decide_eq_true_eq]
    by_cases hvl : absQ v < cp.getD (J.getLast?.getD 0) 0
    · rw [if_pos hvl]
      constructor
      · intro h; exact absurd rfl h
      · intro h; exact absurd hvl (not_lt.mpr h)
    · rw [if_neg hvl]
      constructor
      · intro _; exact not_lt.mp hvl
      · intro _; exact hxnne v hv
  have hmap2 : List.countP (fun c => decide (cp.getD (J.getLast?.getD 0) 0 ≤ c)) cp
      = List.countP (fun v => decide (cp.getD (J.getLast?.getD 0) 0 ≤ absQ v)) xn := by
    show List.countP _ (List.map (fun v => absQ v) xn) = _
    rw [List.countP_map]
    rfl
  have hfc : ((List.range cp.length).filter
      (fun i => decide (cp.getD (J.getLast?.getD 0) 0 ≤ cp.getD i 0)))
      = ((List.range cp.length).filter (fun i => decide (i ∈ J))) := by
    apply List.filter_congr
    intro i hi
    have hin : i < cp.length := List.mem_range.mp hi
    simp only [decide_eq_decide]
    constructor
    · intro h
      by_contra hiJ
      have hstrict := hlt i (by omega) (by simp) hiJ
      linarith
    · intro hiJ
      exact hge i hiJ
  refine ⟨rfl, ?_, ?_⟩
  · rw [hpayload, countNonzero, ← List.countP_eq_length_filter, List.countP_map]
    rw [hcong]
    rw [← hmap2, countP_eq_length_filter_range]
    rw [hfc, length_filter_range_mem J cp.length hnd (fun a ha => by
      have := (hmem a ha).1
      omega)]
    rw [hlenJ]
  · refine ⟨J, hnd, hlenJ, ?_, ?_, ?_, ?_⟩
    · intro a ha
      have := (hmem a ha).1
      omega
    · intro a ha i hi hiJ
      have haa : a < x.length := by
        have := (hmem a ha).1
        omega
      have h1 : cp.getD i 0 < cp.getD (J.getLast?.getD 0) 0 :=
        hlt i (by omega) (by simp) hiJ
      have h3 : cp.getD i 0 < cp.getD a 0 := lt_of_lt_of_le h1 (hge a ha)
      rw [hcpi i (by omega), hcpi a (by omega), hxni i hi, hxni a haa,
        absQ_div, absQ_div] at h3
      have hcpos : 0 < absQ (nf x) := by
        rw [absQ_eq_abs]
        exact abs_pos.mpr hnf
      have h4 := (div_lt_div_iff₀ hcpos hcpos).mp h3
      exact lt_of_mul_lt_mul_right h4 (le_of_lt hcpos)
    · intro i hi hiJ
      rw [hresi i hi, if_neg (not_lt.mpr (hge i hiJ))]
      have hmemx : x.getD i 0 ∈ x := by
        rw [List.getD_eq_getElem?_getD]
        cases hx : x[i]? with
        | none => exact absurd (List.getElem?_eq_none_iff.mp hx) (by omega)
        | some v =>
          simp only [Option.getD_some]
          exact List.getElem?_mem hx
      exact ⟨hxni i hi, div_ne_zero (h0 _ hmemx) hnf⟩
    · intro i hi hiJ
      rw [hresi i hi, if_pos (hlt i (by omega) (by simp) hiJ)]

/-- Witness for the amended C9: x = (3, -1), k = 1, unit normaliser —
the projection succeeds, exactly one nonzero entry survives, and it sits
at a largest-magnitude position with all other entries zeroed. -/
theorem L0_by_count_card_witness :
    ((1:ℕ) ≤ 1 ∧ (1:ℕ) ≤ ([3, -1] : List ℚ).length ∧
        ((fun _ => (1:ℚ)) ([3, -1] : List ℚ)) ≠ 0) ∧
      ((L0_by_count_prox 1 [3, -1] (some (fun _ => 1))).isOk = true ∧
        countNonzero ((L0_by_count_prox 1 [3, -1] (some (fun _ => 1))).toOption.getD [])
          = min 1 ([3, -1] : List ℚ).length ∧
        ∃ J : List ℕ, J.Nodup ∧ J.length = min 1 ([3, -1] : List ℚ).length ∧
          (∀ a ∈ J, a < ([3, -1] : List ℚ).length) ∧
          (∀ a ∈ J, ∀ i, i < ([3, -1] : List ℚ).length → i ∉ J →
            absQ (([3, -1] : List ℚ).getD i 0) < absQ (([3, -1] : List ℚ).getD a 0)) ∧
          (∀ i, i < ([3, -1] : List ℚ).length → i ∈ J →
            ((L0_by_count_prox 1 [3, -1] (some (fun _ => 1))).toOption.getD []).getD i 0
              = ([3, -1] : List ℚ).getD i 0 / (fun _ => (1:ℚ)) ([3, -1] : List ℚ) ∧
              ([3, -1] : List ℚ).getD i 0 / (fun _ => (1:ℚ)) ([3, -1] : List ℚ) ≠ 0) ∧
          (∀ i, i < ([3, -1] : List ℚ).length → i ∉ J →
            ((L0_by_count_prox 1 [3, -1] (some (fun _ => 1))).toOption.getD []).getD i 0
              = 0)) :=
  ⟨⟨le_rfl, by norm_num, by norm_num⟩,
    L0_by_count_card 1 [3, -1] (fun _ => 1) le_rfl (by norm_num) (by norm_num)
      (by
        intro v hv
        rcases List.mem_cons.mp hv with rfl | hv
        · norm_num
        · rcases List.mem_cons.mp hv with rfl | hv
          · norm_num
          · simp at hv)
      (by
        intro i j hi hj hij
        have hi2 : i < 2 := by simpa using hi
        have hj2 : j < 2 := by simpa using hj
        interval_cases i <;> interval_cases j <;>
          first
            | exact absurd rfl hij
            | norm_num [absQ, List.getD_cons_zero, List.getD_cons_succ])⟩

/-- Counterexample to C9 as stated: with the tied input (1, 1, 2) and
target k = 2 (unit normaliser), the threshold becomes 1, the strict
comparison keeps BOTH tied entries, and all three entries survive:
the result has 3 nonzero entries, not min(k, p) = 2.  The default
normaliser=None call additionally raises AttributeError. -/
theorem L0_by_count_ties_counterexample :
    L0_by_count_prox 2 [1, 1, 2] (some (fun _ => 1)) = Except.ok [1, 1, 2] ∧
      countNonzero [1, 1, 2] = 3 ∧ min 2 ([1, 1, 2] : List ℚ).length = 2 ∧
      (3 : ℕ) ≠ 2 ∧
      L0_by_count_prox 2 [1, 1, 2] none
        = Except.error "AttributeError: L0_by_count object has no attribute normaliser" := by
  refine ⟨?_, ?_, by norm_num, by norm_num, rfl⟩
  · norm_num [L0_by_count_prox, selectTopIdx, argmaxIdx, listMaxQ, maxQ, absQ, minQ,
      List.getLast?_cons_cons]
  · norm_num [countNonzero, List.filter]
